import Mathlib

/-!
Verification of the tic-tac-toe engine (santakd/tic-tac-toe).

The repository contains two near-duplicate pygame programs:
  * `ttt3_3.py` — 3×3 board, win = a full row/column/diagonal;
  * `ttt4_3.py` — 4×4 board, win = 3 consecutive marks in any
    row/column/diagonal window (`WIN_LENGTH = 3`).

This file shallowly embeds the game-logic methods of class `TicTacToe`
(`check_win`, `check_draw`, `get_empty_cells`, `evaluate_board`,
`minimax`, `get_easy_move`, `get_best_move`, `is_valid_move`,
`make_move`) and proves the specification claims about them.

Embedding conventions:
  * a board cell (`' '`, `'X'`, `'O'`) is the inductive type `Cell`;
    a board is a total function `Nat → Nat → Cell` (only the cells with
    both indices below the board size are ever consulted by the code);
  * Python float scores, which mix the integers ±10 and the sentinels
    `float('inf')`/`-float('inf')`, are the linearly ordered type
    `Score := WithBot (WithTop Int)` (⊥ = -inf, ⊤ = +inf);
  * the `depth_limit` argument (`float('inf')` or an int) is an
    `Option Nat` (`none` = unlimited);
  * the in-place mutation of the board inside `minimax`
    (`board[row][col] = mark` … recursive call … `board[row][col] = ' '`)
    is threaded explicitly: every search function consumes a board and
    returns the board it leaves behind, so the undo discipline is a
    provable statement rather than a modelling assumption;
  * likewise the instrumentation counter `self.node_count` is threaded
    as an explicit `Nat`;
  * Python's unbounded recursion is embedded with an explicit `fuel`
    argument (structural recursion).  A wrapper supplies
    `fuel = BOARD_SIZE²`, which exceeds the recursion depth actually
    reachable (one ply per empty cell); the fuel-exhaustion branch
    returns the static evaluation.
-/

namespace TTT

/-- A board cell: empty (`' '`), `'X'` or `'O'`. -/
inductive Cell where
  | E : Cell
  | X : Cell
  | O : Cell
deriving DecidableEq

/-- A board, indexed by (row, column).  The engine only reads cells with
both coordinates below the board size. -/
def Board : Type := Nat → Nat → Cell

/-- `board[row][col] = v` as a functional update. -/
def setCell (b : Board) (row col : Nat) (v : Cell) : Board :=
  fun r c => if r = row ∧ c = col then v else b r c

/-- `PLAYER_X if p == PLAYER_O else PLAYER_O` — the opponent of a mark,
exactly as the source computes it (also used for `minimizer`). -/
def other (p : Cell) : Cell :=
  if p = Cell.O then Cell.X else Cell.O

/-- `TicTacToe.check_win` of `ttt3_3.py` (`BOARD_ROWS = BOARD_COLS = 3`):
full rows, full columns, the main diagonal and the anti-diagonal. -/
def checkWin3 (b : Board) (p : Cell) : Bool :=
  ((List.range 3).any fun row => (List.range 3).all fun col => b row col = p) ||
  ((List.range 3).any fun col => (List.range 3).all fun row => b row col = p) ||
  ((List.range 3).all fun i => b i i = p) ||
  ((List.range 3).all fun i => b i (3 - 1 - i) = p)

/-- `TicTacToe.check_win` of `ttt4_3.py` (`BOARD_SIZE = 4`,
`WIN_LENGTH = 3`): every window of `WIN_LENGTH` consecutive cells in
every row, column, main-diagonal and anti-diagonal direction. -/
def checkWin4 (b : Board) (p : Cell) : Bool :=
  ((List.range 4).any fun row => (List.range (4 - 3 + 1)).any fun col =>
    (List.range 3).all fun i => b row (col + i) = p) ||
  ((List.range 4).any fun col => (List.range (4 - 3 + 1)).any fun row =>
    (List.range 3).all fun i => b (row + i) col = p) ||
  ((List.range (4 - 3 + 1)).any fun row => (List.range (4 - 3 + 1)).any fun col =>
    (List.range 3).all fun i => b (row + i) (col + i) = p) ||
  ((List.range (4 - 3 + 1)).any fun row => (List.range' (3 - 1) (4 - (3 - 1))).any fun col =>
    (List.range 3).all fun i => b (row + i) (col - i) = p)

/-- `TicTacToe.check_draw`: every cell of the `n × n` board is non-empty. -/
def checkDraw (n : Nat) (b : Board) : Bool :=
  (List.range n).all fun row => (List.range n).all fun col => b row col ≠ Cell.E

/-- `TicTacToe.get_empty_cells`: the `(row, col)` pairs of empty cells,
in row-major order. -/
def getEmptyCells (n : Nat) (b : Board) : List (Nat × Nat) :=
  (List.range n).flatMap fun row =>
    (List.range n).filterMap fun col =>
      if b row col = Cell.E then some (row, col) else none

/-- `TicTacToe.evaluate_board`: `+10` if the maximizer has a winning
alignment, `-10` if the opponent has, else `0`.  Parameterized by the
variant's `check_win`. -/
def evaluate (checkWin : Board → Cell → Bool) (b : Board) (maximizer : Cell) : Int :=
  if checkWin b maximizer then 10
  else if checkWin b (other maximizer) then -10
  else 0

/-- The score lattice of the search: integers together with the
sentinels `-float('inf')` (⊥) and `float('inf')` (⊤). -/
abbrev Score := WithBot (WithTop Int)

/-- An integer viewed as a `Score`. -/
def toScore (z : Int) : Score := ((z : WithTop Int) : Score)

/-- `depth >= depth_limit` (`depth_limit` = `none` means
`float('inf')`, which no depth ever reaches). -/
def depthCutoff (dl : Option Nat) (depth : Nat) : Bool :=
  match dl with
  | none => false
  | some l => l ≤ depth

/-- The maximizing `for row, col in self.get_empty_cells(board):` loop of
`TicTacToe.minimax`.  `rec board alpha beta nodes` is the recursive call
`self.minimax(board, depth+1, alpha, beta, False, maximizer, depth_limit)`
at one fuel less; the loop threads the mutated board, the node counter,
the running `alpha` and the running `max_eval` (initially `-float('inf')`),
and stops early when `beta <= alpha` — after the undo, exactly as the
source breaks after `board[row][col] = ' '`. -/
def maxLoop (maximizer : Cell) (rec : Board → Score → Score → Nat → Score × Board × Nat) :
    List (Nat × Nat) → Board → Score → Score → Nat → Score → Score × Board × Nat
  | [], b, _, _, nodes, maxEval => (maxEval, b, nodes)
  | (row, col) :: rest, b, alpha, beta, nodes, maxEval =>
    let res := rec (setCell b row col maximizer) alpha beta nodes
    let b2 := setCell res.2.1 row col Cell.E
    let maxEval2 := if res.1 > maxEval then res.1 else maxEval
    let alpha2 := max alpha res.1
    if beta ≤ alpha2 then (maxEval2, b2, res.2.2)
    else maxLoop maximizer rec rest b2 alpha2 beta res.2.2 maxEval2

/-- The minimizing loop of `TicTacToe.minimax`, dually: places the
minimizer's mark, tracks the running `min_eval` (initially
`float('inf')`) and the running `beta`. -/
def minLoop (minimizer : Cell) (rec : Board → Score → Score → Nat → Score × Board × Nat) :
    List (Nat × Nat) → Board → Score → Score → Nat → Score → Score × Board × Nat
  | [], b, _, _, nodes, minEval => (minEval, b, nodes)
  | (row, col) :: rest, b, alpha, beta, nodes, minEval =>
    let res := rec (setCell b row col minimizer) alpha beta nodes
    let b2 := setCell res.2.1 row col Cell.E
    let minEval2 := if res.1 < minEval then res.1 else minEval
    let beta2 := min beta res.1
    if beta2 ≤ alpha then (minEval2, b2, res.2.2)
    else minLoop minimizer rec rest b2 alpha beta2 res.2.2 minEval2

/-- `TicTacToe.minimax` (identical text in both source files; the board
size `n` and the variant's `check_win` are the only differences).
Returns `(score, board, node_count)`: the board the call leaves behind
and the updated `self.node_count` are made explicit.  `fuel` bounds the
recursion depth; the fuel-exhaustion branch (never reached from the
wrapper, which supplies more fuel than there are empty cells) returns
the static evaluation. -/
def minimax (n : Nat) (checkWin : Board → Cell → Bool) :
    Nat → Board → Nat → Score → Score → Bool → Cell → Option Nat → Nat →
    Score × Board × Nat
  | 0, b, _, _, _, _, maximizer, _, nodes =>
    (toScore (evaluate checkWin b maximizer), b, nodes)
  | fuel + 1, b, depth, alpha, beta, isMaximizing, maximizer, depthLimit, nodes =>
    if depthCutoff depthLimit depth then
      (toScore (evaluate checkWin b maximizer), b, nodes)
    else
      let nodes1 := nodes + 1
      let score := evaluate checkWin b maximizer
      if score ≠ 0 then
        if score > 0 then (toScore (score - depth), b, nodes1)
        else (toScore (score + depth), b, nodes1)
      else if checkDraw n b then (toScore 0, b, nodes1)
      else if isMaximizing then
        maxLoop maximizer
          (fun b' a' b'' nds =>
            minimax n checkWin fuel b' (depth + 1) a' b'' false maximizer depthLimit nds)
          (getEmptyCells n b) b alpha beta nodes1 ⊥
      else
        minLoop (other maximizer)
          (fun b' a' b'' nds =>
            minimax n checkWin fuel b' (depth + 1) a' b'' true maximizer depthLimit nds)
          (getEmptyCells n b) b alpha beta nodes1 ⊤

/-- Modelled from the spec: the pruning-free exhaustive minimax the
alpha-beta search is compared against ("the move chosen by a
pruning-free exhaustive minimax"; "the exact minimax value").  Same
terminal and cutoff structure as `minimax`, but every child of a node is
evaluated and combined with `max`/`min` — no alpha-beta window, no
pruning. -/
def minimaxNP (n : Nat) (checkWin : Board → Cell → Bool) :
    Nat → Board → Nat → Bool → Cell → Option Nat → Score
  | 0, b, _, _, maximizer, _ => toScore (evaluate checkWin b maximizer)
  | fuel + 1, b, depth, isMaximizing, maximizer, depthLimit =>
    if depthCutoff depthLimit depth then toScore (evaluate checkWin b maximizer)
    else
      let score := evaluate checkWin b maximizer
      if score ≠ 0 then
        if score > 0 then toScore (score - depth)
        else toScore (score + depth)
      else if checkDraw n b then toScore 0
      else if isMaximizing then
        (getEmptyCells n b).foldl
          (fun acc rc =>
            max acc (minimaxNP n checkWin fuel (setCell b rc.1 rc.2 maximizer)
              (depth + 1) false maximizer depthLimit))
          ⊥
      else
        (getEmptyCells n b).foldl
          (fun acc rc =>
            min acc (minimaxNP n checkWin fuel (setCell b rc.1 rc.2 (other maximizer))
              (depth + 1) true maximizer depthLimit))
          ⊤

/-- One priority pass of `TicTacToe.get_easy_move`: for each candidate
cell, place `mark` (`board[row][col] = mark`), test
`check_win(mark)`, undo the test move, and return the first hit.  Used
with the AI's mark (priority 1, winning move) and with the opponent's
mark (priority 2, blocking move).  The mutated `self.board` is
threaded. -/
def easyLoop (checkWin : Board → Cell → Bool) (mark : Cell) :
    List (Nat × Nat) → Board → Option (Nat × Nat) × Board
  | [], b => (none, b)
  | (row, col) :: rest, b =>
    let b1 := setCell b row col mark
    if checkWin b1 mark then (some (row, col), setCell b1 row col Cell.E)
    else easyLoop checkWin mark rest (setCell b1 row col Cell.E)

/-- `TicTacToe.get_easy_move`: win, then block, then
`random.choice(empty_cells) if empty_cells else None`.  The random
choice is abstracted as the function `pick` (a faithful embedding of
`random.choice` assumes only `pick l ∈ l` for nonempty `l`).  Returns
the chosen cell and the final `self.board`. -/
def getEasyMove (n : Nat) (checkWin : Board → Cell → Bool)
    (pick : List (Nat × Nat) → Nat × Nat) (b : Board) (aiPlayer : Cell) :
    Option (Nat × Nat) × Board :=
  let opponent := other aiPlayer
  let empty := getEmptyCells n b
  let r1 := easyLoop checkWin aiPlayer empty b
  match r1.1 with
  | some rc => (some rc, r1.2)
  | none =>
    let r2 := easyLoop checkWin opponent empty r1.2
    match r2.1 with
    | some rc => (some rc, r2.2)
    | none => (if empty.isEmpty then none else some (pick empty), r2.2)

/-- The `for row, col in self.get_empty_cells():` loop of
`TicTacToe.get_best_move` (medium/hard path): simulate the maximizer's
move on `board_copy`, score it with
`minimax(board_copy, 0, -inf, +inf, False, maximizer, depth_limit)`,
undo, append to `move_scores`, and keep the first strictly better
`(best_score, best_move)`.  Threads `board_copy` and `self.node_count`;
returns `(best_move, best_score, move_scores, board_copy, node_count)`. -/
def bestLoop (n : Nat) (checkWin : Board → Cell → Bool) (fuel : Nat)
    (maximizer : Cell) (depthLimit : Option Nat) :
    List (Nat × Nat) → Board → Score → Option (Nat × Nat) →
    List ((Nat × Nat) × Score) → Nat →
    Option (Nat × Nat) × Score × List ((Nat × Nat) × Score) × Board × Nat
  | [], bc, bestScore, bestMove, moveScores, nodes =>
    (bestMove, bestScore, moveScores, bc, nodes)
  | (row, col) :: rest, bc, bestScore, bestMove, moveScores, nodes =>
    let res := minimax n checkWin fuel (setCell bc row col maximizer) 0 ⊥ ⊤
      false maximizer depthLimit nodes
    let bc2 := setCell res.2.1 row col Cell.E
    let moveScores2 := moveScores ++ [((row, col), res.1)]
    if res.1 > bestScore then
      bestLoop n checkWin fuel maximizer depthLimit rest bc2 res.1 (some (row, col))
        moveScores2 res.2.2
    else
      bestLoop n checkWin fuel maximizer depthLimit rest bc2 bestScore bestMove
        moveScores2 res.2.2

/-- The game mode selected in the menu. -/
inductive Mode where
  | humanVsAi : Mode
  | aiVsAi : Mode
deriving DecidableEq

/-- The difficulty selected in the menu. -/
inductive Difficulty where
  | easy : Difficulty
  | medium : Difficulty
  | hard : Difficulty
deriving DecidableEq

/-- `maximizer = PLAYER_O if self.mode == 'human_vs_ai' else self.current_player`. -/
def maximizerOf (mode : Mode) (currentPlayer : Cell) : Cell :=
  if mode = Mode.humanVsAi then Cell.O else currentPlayer

/-- `depth_limit = float('inf') if hard else 5 if medium else 0`
(`ttt3_3.py`). -/
def depthLimitOf (difficulty : Difficulty) : Option Nat :=
  if difficulty = Difficulty.hard then none
  else if difficulty = Difficulty.medium then some 5 else some 0

/-- `TicTacToe.get_best_move` of `ttt3_3.py`.  The maximizer is `O` in
human-vs-AI mode and the current player otherwise; the depth limit is
`float('inf')` for hard, `5` for medium, `0` otherwise; the easy
difficulty delegates to `get_easy_move`, the others run the minimax
loop on a deep copy of `self.board` with `best_score = -inf` and
`best_move = None`.  Returns the chosen cell.  (`fuel = 9` strictly
exceeds the at most `8` plies reachable below a top-level candidate
position, so the fuel-exhaustion branch of `minimax` is never taken.) -/
def getBestMove3 (pick : List (Nat × Nat) → Nat × Nat) (mode : Mode)
    (difficulty : Difficulty) (currentPlayer : Cell) (b : Board) : Option (Nat × Nat) :=
  let maximizer := maximizerOf mode currentPlayer
  let depthLimit := depthLimitOf difficulty
  if difficulty = Difficulty.easy then (getEasyMove 3 checkWin3 pick b maximizer).1
  else (bestLoop 3 checkWin3 (3 * 3) maximizer depthLimit (getEmptyCells 3 b) b ⊥ none [] 0).1

/-- `TicTacToe.is_valid_move` of `ttt3_3.py`:
`0 <= row < BOARD_ROWS and 0 <= col < BOARD_COLS and board[row][col] == ' '`.
Coordinates are integers, as in the source. -/
def isValidMove (b : Board) (row col : Int) : Bool :=
  decide (0 ≤ row) && decide (row < 3) && decide (0 ≤ col) && decide (col < 3) &&
    decide (b row.toNat col.toNat = Cell.E)

/-- `TicTacToe.make_move` of `ttt3_3.py`: on a valid move set the cell
and return `True`, otherwise leave the board alone and return `False`. -/
def makeMove (b : Board) (row col : Int) (player : Cell) : Bool × Board :=
  if isValidMove b row col then (true, setCell b row.toNat col.toNat player)
  else (false, b)

/-- `BOARD_SIZE` of `ttt4_3.py`. -/
def BOARD_SIZE : Nat := 4

/-- `WIN_LENGTH` of `ttt4_3.py`. -/
def WIN_LENGTH : Nat := 3

/-- `TicTacToe.__init__` of `ttt4_3.py`, game-logic part: the board
starts all-empty, `X` moves first, no game over, no winner, zero node
count.  The constructor takes no board-size or win-length parameter and
has no failure path (it never raises), which the embedding records by
returning `Except.ok` unconditionally: there is no configuration
validation in the source. -/
def init4 : Except String (Board × Cell × Bool × Option Cell × Nat) :=
  Except.ok ((fun _ _ => Cell.E), Cell.X, false, none, 0)

/-- Modelled from the spec: "there exists a window of exactly K
consecutive cells all equal to mark along some row, column, main
diagonal, or anti-diagonal" — the window predicate `check_win` is
compared against (claim C3). -/
def winWindow (n k : Nat) (b : Board) (p : Cell) : Prop :=
  (∃ row < n, ∃ col, col + k ≤ n ∧ ∀ i < k, b row (col + i) = p) ∨
  (∃ col < n, ∃ row, row + k ≤ n ∧ ∀ i < k, b (row + i) col = p) ∨
  (∃ row col, row + k ≤ n ∧ col + k ≤ n ∧ ∀ i < k, b (row + i) (col + i) = p) ∨
  (∃ row col, row + k ≤ n ∧ k ≤ col + 1 ∧ col < n ∧ ∀ i < k, b (row + i) (col - i) = p)

/-- Modelled from the spec: the top-level selection a pruning-free
exhaustive minimax would make — same candidate order and same
first-strictly-greater selection rule as `get_best_move`, but each
candidate scored by `minimaxNP` (claim C1). -/
def selNP (n : Nat) (checkWin : Board → Cell → Bool) (fuel : Nat)
    (maximizer : Cell) (depthLimit : Option Nat) (b : Board) :
    List (Nat × Nat) → Score → Option (Nat × Nat) → Option (Nat × Nat)
  | [], _, bestMove => bestMove
  | rc :: rest, bestScore, bestMove =>
    let s := minimaxNP n checkWin fuel (setCell b rc.1 rc.2 maximizer) 0 false
      maximizer depthLimit
    if s > bestScore then selNP n checkWin fuel maximizer depthLimit b rest s (some rc)
    else selNP n checkWin fuel maximizer depthLimit b rest bestScore bestMove

/-- Modelled from the spec: the move a pruning-free exhaustive minimax
selects for a position (claim C1). -/
def getBestMoveNP (n : Nat) (checkWin : Board → Cell → Bool) (fuel : Nat)
    (maximizer : Cell) (depthLimit : Option Nat) (b : Board) : Option (Nat × Nat) :=
  selNP n checkWin fuel maximizer depthLimit b (getEmptyCells n b) ⊥ none

/-- A score that is an integer between `-10` and `10`. -/
def inRange (s : Score) : Prop :=
  ∃ z : Int, s = toScore z ∧ -10 ≤ z ∧ z ≤ 10

/-- The fail-soft alpha-beta contract for a window `(α, β)`: the
returned `r` fails low (an upper bound on the true value `v`), fails
high (a lower bound), or is exact. -/
def approx (α β r v : Score) : Prop :=
  (r ≤ α ∧ v ≤ r) ∨ (β ≤ r ∧ r ≤ v) ∨ r = v

/-- The alpha-beta score `get_best_move` assigns to the candidate cell
`rc` of board `b`: place the maximizer, search with the minimizer to
move at the full window. -/
def candScore (n : Nat) (checkWin : Board → Cell → Bool) (fuel : Nat)
    (maximizer : Cell) (depthLimit : Option Nat) (b : Board) (rc : Nat × Nat) : Score :=
  (minimax n checkWin fuel (setCell b rc.1 rc.2 maximizer) 0 ⊥ ⊤ false maximizer
    depthLimit 0).1

/-- The pure selection logic of the `get_best_move` loop: keep the
first candidate whose score strictly exceeds the running best. -/
def selF (score : (Nat × Nat) → Score) :
    List (Nat × Nat) → Score → Option (Nat × Nat) → Score × Option (Nat × Nat)
  | [], best, bm => (best, bm)
  | rc :: rest, best, bm =>
    if score rc > best then selF score rest (score rc) (some rc)
    else selF score rest best bm

/-! ### Concrete boards used to instantiate the claims -/

/-- The all-empty 3×3 board. -/
def boardEmpty : Board := fun _ _ => Cell.E

/-- A completely filled 3×3 board with no three-in-a-row:
`X O X / X O O / O X X`. -/
def boardDraw : Board := fun r c =>
  if r = 0 ∧ c = 0 then Cell.X else if r = 0 ∧ c = 1 then Cell.O else
  if r = 0 ∧ c = 2 then Cell.X else if r = 1 ∧ c = 0 then Cell.X else
  if r = 1 ∧ c = 1 then Cell.O else if r = 1 ∧ c = 2 then Cell.O else
  if r = 2 ∧ c = 0 then Cell.O else if r = 2 ∧ c = 1 then Cell.X else
  if r = 2 ∧ c = 2 then Cell.X else Cell.E

/-- Row 0 entirely `X`, all other cells empty: `X` has already won. -/
def boardXWin : Board := fun r c => if r = 0 ∧ c < 3 then Cell.X else Cell.E

/-- The concrete scenario of the spec: row 0 = `[X, X, ' ']`, every
other cell empty. -/
def boardScenario : Board := fun r c =>
  if r = 0 ∧ (c = 0 ∨ c = 1) then Cell.X else Cell.E

/-- `X X . / O O . / X O X`: two empty cells, `O` wins at `(1,2)` and
placing `X` at `(0,2)` would win for `X`. -/
def boardTwo : Board := fun r c =>
  if r = 0 ∧ c = 0 then Cell.X else if r = 0 ∧ c = 1 then Cell.X else
  if r = 1 ∧ c = 0 then Cell.O else if r = 1 ∧ c = 1 then Cell.O else
  if r = 2 ∧ c = 0 then Cell.X else if r = 2 ∧ c = 1 then Cell.O else
  if r = 2 ∧ c = 2 then Cell.X else Cell.E

/-! ### Basic facts about `Score`, `setCell` and `getEmptyCells` -/

theorem toScore_le_toScore {z w : Int} : toScore z ≤ toScore w ↔ z ≤ w := by
  simp [toScore]

theorem toScore_lt_toScore {z w : Int} : toScore z < toScore w ↔ z < w := by
  simp [toScore]

theorem toScore_ne_bot (z : Int) : toScore z ≠ ⊥ := by
  simp [toScore]

theorem bot_lt_toScore (z : Int) : (⊥ : Score) < toScore z := by
  simp [toScore]

theorem toScore_lt_top (z : Int) : toScore z < (⊤ : Score) := by
  simp only [toScore]
  exact WithBot.coe_lt_coe.mpr (WithTop.coe_lt_top z)

theorem max_toScore (z w : Int) : max (toScore z) (toScore w) = toScore (max z w) := by
  rcases le_total z w with h | h
  · rw [max_eq_right (toScore_le_toScore.mpr h), max_eq_right h]
  · rw [max_eq_left (toScore_le_toScore.mpr h), max_eq_left h]

theorem min_toScore (z w : Int) : min (toScore z) (toScore w) = toScore (min z w) := by
  rcases le_total z w with h | h
  · rw [min_eq_left (toScore_le_toScore.mpr h), min_eq_left h]
  · rw [min_eq_right (toScore_le_toScore.mpr h), min_eq_right h]

/-- `if b > a then b else a` (how the source updates `max_eval`) is `max`. -/
theorem if_gt_eq_max (a b : Score) : (if b > a then b else a) = max a b := by
  rcases le_or_lt b a with h | h
  · simp [not_lt.mpr h, max_eq_left h]
  · simp [h, max_eq_right h.le]

/-- `if b < a then b else a` (how the source updates `min_eval`) is `min`. -/
theorem if_lt_eq_min (a b : Score) : (if b < a then b else a) = min a b := by
  rcases le_or_lt a b with h | h
  · simp [not_lt.mpr h, min_eq_left h]
  · simp [h, min_eq_right h.le]

theorem setCell_self (b : Board) (row col : Nat) (v : Cell) :
    setCell b row col v row col = v := by
  simp [setCell]

theorem setCell_setCell (b : Board) (row col : Nat) (v w : Cell) :
    setCell (setCell b row col v) row col w = setCell b row col w := by
  funext r c
  by_cases h : r = row ∧ c = col <;> simp [setCell, h]

theorem setCell_eq_of_eq {b : Board} {row col : Nat} {v : Cell}
    (h : b row col = v) : setCell b row col v = b := by
  funext r c
  by_cases hrc : r = row ∧ c = col
  · simp [setCell, hrc, hrc.1, hrc.2, h]
  · simp [setCell, hrc]

theorem mem_getEmptyCells {n : Nat} {b : Board} {rc : Nat × Nat} :
    rc ∈ getEmptyCells n b ↔ rc.1 < n ∧ rc.2 < n ∧ b rc.1 rc.2 = Cell.E := by
  obtain ⟨row, col⟩ := rc
  simp only [getEmptyCells, List.mem_flatMap, List.mem_filterMap, List.mem_range]
  constructor
  · rintro ⟨r, hr, c, hc, h⟩
    split at h
    · rename_i he
      obtain ⟨rfl, rfl⟩ := Prod.mk.injEq .. ▸ Option.some.injEq .. ▸ h
      exact ⟨hr, hc, he⟩
    · exact absurd h (by simp)
  · rintro ⟨hr, hc, he⟩
    exact ⟨row, hr, col, hc, by simp [he]⟩

/-! ### Claim C4 machinery: every simulated placement is undone -/

/-- The maximizing loop hands back exactly the board it was given,
provided the recursive call does so and every listed cell is empty —
in particular also on the early `break` after pruning, because the undo
`board[row][col] = ' '` precedes the `break`. -/
theorem maxLoop_board (maximizer : Cell)
    (rec : Board → Score → Score → Nat → Score × Board × Nat)
    (hrec : ∀ b α β nds, (rec b α β nds).2.1 = b) :
    ∀ (cells : List (Nat × Nat)) (b : Board) (α β : Score) (nodes : Nat) (acc : Score),
      (∀ rc ∈ cells, b rc.1 rc.2 = Cell.E) →
      (maxLoop maximizer rec cells b α β nodes acc).2.1 = b := by
  intro cells
  induction cells with
  | nil => intro b α β nodes acc _; rfl
  | cons rc rest ih =>
    obtain ⟨row, col⟩ := rc
    intro b α β nodes acc hemp
    have hcell : b row col = Cell.E := hemp (row, col) (List.mem_cons_self ..)
    have hb2 : setCell ((rec (setCell b row col maximizer) α β nodes).2.1) row col Cell.E = b := by
      rw [hrec, setCell_setCell, setCell_eq_of_eq hcell]
    simp only [maxLoop]
    split
    · simpa using hb2
    · rw [hb2]
      exact ih b _ β _ _ (fun rc h => hemp rc (List.mem_cons_of_mem _ h))

/-- Dual of `maxLoop_board` for the minimizing loop. -/
theorem minLoop_board (minimizer : Cell)
    (rec : Board → Score → Score → Nat → Score × Board × Nat)
    (hrec : ∀ b α β nds, (rec b α β nds).2.1 = b) :
    ∀ (cells : List (Nat × Nat)) (b : Board) (α β : Score) (nodes : Nat) (acc : Score),
      (∀ rc ∈ cells, b rc.1 rc.2 = Cell.E) →
      (minLoop minimizer rec cells b α β nodes acc).2.1 = b := by
  intro cells
  induction cells with
  | nil => intro b α β nodes acc _; rfl
  | cons rc rest ih =>
    obtain ⟨row, col⟩ := rc
    intro b α β nodes acc hemp
    have hcell : b row col = Cell.E := hemp (row, col) (List.mem_cons_self ..)
    have hb2 : setCell ((rec (setCell b row col minimizer) α β nodes).2.1) row col Cell.E = b := by
      rw [hrec, setCell_setCell, setCell_eq_of_eq hcell]
    simp only [minLoop]
    split
    · simpa using hb2
    · rw [hb2]
      exact ih b α _ _ _ (fun rc h => hemp rc (List.mem_cons_of_mem _ h))

/-- `minimax` hands back exactly the board it was given: every
simulated placement is undone by the time the call returns. -/
theorem minimax_board (n : Nat) (checkWin : Board → Cell → Bool) :
    ∀ (fuel : Nat) (b : Board) (depth : Nat) (α β : Score) (isMax : Bool)
      (mz : Cell) (dl : Option Nat) (nodes : Nat),
      (minimax n checkWin fuel b depth α β isMax mz dl nodes).2.1 = b := by
  intro fuel
  induction fuel with
  | zero => intro b depth α β isMax mz dl nodes; rfl
  | succ fuel ih =>
    intro b depth α β isMax mz dl nodes
    simp only [minimax]
    split
    · rfl
    · split
      · split <;> rfl
      · split
        · rfl
        · split
          · exact maxLoop_board _ _ (fun b' α' β' nds => ih b' _ α' β' _ _ _ nds) _ b _ _ _ _
              (fun rc h => (mem_getEmptyCells.mp h).2.2)
          · exact minLoop_board _ _ (fun b' α' β' nds => ih b' _ α' β' _ _ _ nds) _ b _ _ _ _
              (fun rc h => (mem_getEmptyCells.mp h).2.2)

/-- The top-level candidate loop of `get_best_move` also hands back the
board copy it was given. -/
theorem bestLoop_board (n : Nat) (checkWin : Board → Cell → Bool) (fuel : Nat)
    (maximizer : Cell) (depthLimit : Option Nat) :
    ∀ (cells : List (Nat × Nat)) (bc : Board) (bestScore : Score)
      (bestMove : Option (Nat × Nat)) (moveScores : List ((Nat × Nat) × Score)) (nodes : Nat),
      (∀ rc ∈ cells, bc rc.1 rc.2 = Cell.E) →
      (bestLoop n checkWin fuel maximizer depthLimit cells bc bestScore bestMove
        moveScores nodes).2.2.2.1 = bc := by
  intro cells
  induction cells with
  | nil => intro bc bestScore bestMove moveScores nodes _; rfl
  | cons rc rest ih =>
    obtain ⟨row, col⟩ := rc
    intro bc bestScore bestMove moveScores nodes hemp
    have hcell : bc row col = Cell.E := hemp (row, col) (List.mem_cons_self ..)
    have hb2 : setCell ((minimax n checkWin fuel (setCell bc row col maximizer) 0 ⊥ ⊤
        false maximizer depthLimit nodes).2.1) row col Cell.E = bc := by
      rw [minimax_board, setCell_setCell, setCell_eq_of_eq hcell]
    simp only [bestLoop]
    split
    · rw [hb2]
      exact ih bc _ _ _ _ (fun rc h => hemp rc (List.mem_cons_of_mem _ h))
    · rw [hb2]
      exact ih bc _ _ _ _ (fun rc h => hemp rc (List.mem_cons_of_mem _ h))

/-- Each priority pass of `get_easy_move` undoes its test placements. -/
theorem easyLoop_board (checkWin : Board → Cell → Bool) (mark : Cell) :
    ∀ (cells : List (Nat × Nat)) (b : Board),
      (∀ rc ∈ cells, b rc.1 rc.2 = Cell.E) →
      (easyLoop checkWin mark cells b).2 = b := by
  intro cells
  induction cells with
  | nil => intro b _; rfl
  | cons rc rest ih =>
    obtain ⟨row, col⟩ := rc
    intro b hemp
    have hcell : b row col = Cell.E := hemp (row, col) (List.mem_cons_self ..)
    have hb2 : setCell (setCell b row col mark) row col Cell.E = b := by
      rw [setCell_setCell, setCell_eq_of_eq hcell]
    simp only [easyLoop]
    split
    · simpa using hb2
    · rw [hb2]
      exact ih b (fun rc h => hemp rc (List.mem_cons_of_mem _ h))

/-! ### Node-counter plumbing -/

/-- The node counter never decreases through the maximizing loop. -/
theorem maxLoop_nodes_le (maximizer : Cell)
    (rec : Board → Score → Score → Nat → Score × Board × Nat)
    (hrec : ∀ b α β nds, nds ≤ (rec b α β nds).2.2) :
    ∀ (cells : List (Nat × Nat)) (b : Board) (α β : Score) (nodes : Nat) (acc : Score),
      nodes ≤ (maxLoop maximizer rec cells b α β nodes acc).2.2 := by
  intro cells
  induction cells with
  | nil => intro b α β nodes acc; exact le_refl _
  | cons rc rest ih =>
    obtain ⟨row, col⟩ := rc
    intro b α β nodes acc
    simp only [maxLoop]
    split
    · exact hrec _ _ _ _
    · exact le_trans (hrec _ _ _ _) (ih _ _ _ _ _)

/-- The node counter never decreases through the minimizing loop. -/
theorem minLoop_nodes_le (minimizer : Cell)
    (rec : Board → Score → Score → Nat → Score × Board × Nat)
    (hrec : ∀ b α β nds, nds ≤ (rec b α β nds).2.2) :
    ∀ (cells : List (Nat × Nat)) (b : Board) (α β : Score) (nodes : Nat) (acc : Score),
      nodes ≤ (minLoop minimizer rec cells b α β nodes acc).2.2 := by
  intro cells
  induction cells with
  | nil => intro b α β nodes acc; exact le_refl _
  | cons rc rest ih =>
    obtain ⟨row, col⟩ := rc
    intro b α β nodes acc
    simp only [minLoop]
    split
    · exact hrec _ _ _ _
    · exact le_trans (hrec _ _ _ _) (ih _ _ _ _ _)

/-- The node counter never decreases through `minimax`. -/
theorem minimax_nodes_le (n : Nat) (checkWin : Board → Cell → Bool) :
    ∀ (fuel : Nat) (b : Board) (depth : Nat) (α β : Score) (isMax : Bool)
      (mz : Cell) (dl : Option Nat) (nodes : Nat),
      nodes ≤ (minimax n checkWin fuel b depth α β isMax mz dl nodes).2.2 := by
  intro fuel
  induction fuel with
  | zero => intro b depth α β isMax mz dl nodes; exact le_refl _
  | succ fuel ih =>
    intro b depth α β isMax mz dl nodes
    simp only [minimax]
    split
    · exact le_refl _
    · have hsucc : nodes ≤ nodes + 1 := Nat.le_succ _
      split
      · split <;> exact hsucc
      · split
        · exact hsucc
        · split
          · exact le_trans hsucc
              (maxLoop_nodes_le _ _ (fun b' α' β' nds => ih b' _ α' β' _ _ _ nds) _ _ _ _ _ _)
          · exact le_trans hsucc
              (minLoop_nodes_le _ _ (fun b' α' β' nds => ih b' _ α' β' _ _ _ nds) _ _ _ _ _ _)

/-- The initial node counter is pure instrumentation for the maximizing
loop: score and final board do not depend on it, and it shifts the
final count additively. -/
theorem maxLoop_nodes_shift (maximizer : Cell)
    (rec : Board → Score → Score → Nat → Score × Board × Nat)
    (hrec : ∀ b α β nds, rec b α β nds =
      ((rec b α β 0).1, (rec b α β 0).2.1, nds + (rec b α β 0).2.2)) :
    ∀ (cells : List (Nat × Nat)) (b : Board) (α β : Score) (nodes : Nat) (acc : Score),
      maxLoop maximizer rec cells b α β nodes acc =
        ((maxLoop maximizer rec cells b α β 0 acc).1,
         (maxLoop maximizer rec cells b α β 0 acc).2.1,
         nodes + (maxLoop maximizer rec cells b α β 0 acc).2.2) := by
  intro cells
  induction cells with
  | nil => intro b α β nodes acc; rfl
  | cons rc rest ih =>
    obtain ⟨row, col⟩ := rc
    intro b α β nodes acc
    simp only [maxLoop]
    rw [hrec (setCell b row col maximizer) α β nodes]
    split
    · rfl
    · rw [ih _ _ _ (nodes + (rec (setCell b row col maximizer) α β 0).2.2) _,
        ih _ _ _ ((rec (setCell b row col maximizer) α β 0).2.2) _, Nat.add_assoc]

/-- Dual of `maxLoop_nodes_shift`. -/
theorem minLoop_nodes_shift (minimizer : Cell)
    (rec : Board → Score → Score → Nat → Score × Board × Nat)
    (hrec : ∀ b α β nds, rec b α β nds =
      ((rec b α β 0).1, (rec b α β 0).2.1, nds + (rec b α β 0).2.2)) :
    ∀ (cells : List (Nat × Nat)) (b : Board) (α β : Score) (nodes : Nat) (acc : Score),
      minLoop minimizer rec cells b α β nodes acc =
        ((minLoop minimizer rec cells b α β 0 acc).1,
         (minLoop minimizer rec cells b α β 0 acc).2.1,
         nodes + (minLoop minimizer rec cells b α β 0 acc).2.2) := by
  intro cells
  induction cells with
  | nil => intro b α β nodes acc; rfl
  | cons rc rest ih =>
    obtain ⟨row, col⟩ := rc
    intro b α β nodes acc
    simp only [minLoop]
    rw [hrec (setCell b row col minimizer) α β nodes]
    split
    · rfl
    · rw [ih _ _ _ (nodes + (rec (setCell b row col minimizer) α β 0).2.2) _,
        ih _ _ _ ((rec (setCell b row col minimizer) α β 0).2.2) _, Nat.add_assoc]

/-- The initial node counter is pure instrumentation for `minimax`:
score and final board do not depend on it, and it shifts the final
count additively. -/
theorem minimax_nodes_shift (n : Nat) (checkWin : Board → Cell → Bool) :
    ∀ (fuel : Nat) (b : Board) (depth : Nat) (α β : Score) (isMax : Bool)
      (mz : Cell) (dl : Option Nat) (nodes : Nat),
      minimax n checkWin fuel b depth α β isMax mz dl nodes =
        ((minimax n checkWin fuel b depth α β isMax mz dl 0).1,
         (minimax n checkWin fuel b depth α β isMax mz dl 0).2.1,
         nodes + (minimax n checkWin fuel b depth α β isMax mz dl 0).2.2) := by
  intro fuel
  induction fuel with
  | zero => intro b depth α β isMax mz dl nodes; rfl
  | succ fuel ih =>
    intro b depth α β isMax mz dl nodes
    simp only [minimax]
    split
    · rfl
    · split
      · split <;> rfl
      · split
        · rfl
        · split
          · rw [maxLoop_nodes_shift _ _ (fun b' α' β' nds => ih b' _ α' β' _ _ _ nds)
                _ _ _ _ (nodes + 1) _,
              maxLoop_nodes_shift _ _ (fun b' α' β' nds => ih b' _ α' β' _ _ _ nds)
                _ _ _ _ (0 + 1) _]
            simp [Nat.add_assoc, Nat.add_comm 1]
          · rw [minLoop_nodes_shift _ _ (fun b' α' β' nds => ih b' _ α' β' _ _ _ nds)
                _ _ _ _ (nodes + 1) _,
              minLoop_nodes_shift _ _ (fun b' α' β' nds => ih b' _ α' β' _ _ _ nds)
                _ _ _ _ (0 + 1) _]
            simp [Nat.add_assoc, Nat.add_comm 1]

/-! ### Claim C10 machinery: scores are finite and in [-10, 10] -/

theorem inRange_max {a b : Score} (ha : inRange a) (hb : inRange b) :
    inRange (max a b) := by
  obtain ⟨z, rfl, hz1, hz2⟩ := ha
  obtain ⟨w, rfl, hw1, hw2⟩ := hb
  exact ⟨max z w, max_toScore z w, le_max_of_le_left hz1, max_le hz2 hw2⟩

theorem inRange_min {a b : Score} (ha : inRange a) (hb : inRange b) :
    inRange (min a b) := by
  obtain ⟨z, rfl, hz1, hz2⟩ := ha
  obtain ⟨w, rfl, hw1, hw2⟩ := hb
  exact ⟨min z w, min_toScore z w, le_min hz1 hw1, min_le_of_left_le hz2⟩

/-- `evaluate_board` only ever returns `10`, `-10` or `0`. -/
theorem evaluate_cases (checkWin : Board → Cell → Bool) (b : Board) (mz : Cell) :
    evaluate checkWin b mz = 10 ∨ evaluate checkWin b mz = -10 ∨
      evaluate checkWin b mz = 0 := by
  unfold evaluate
  split
  · exact Or.inl rfl
  · split
    · exact Or.inr (Or.inl rfl)
    · exact Or.inr (Or.inr rfl)

theorem inRange_evaluate (checkWin : Board → Cell → Bool) (b : Board) (mz : Cell) :
    inRange (toScore (evaluate checkWin b mz)) := by
  rcases evaluate_cases checkWin b mz with h | h | h <;> rw [h]
  · exact ⟨10, rfl, by omega, by omega⟩
  · exact ⟨-10, rfl, by omega, by omega⟩
  · exact ⟨0, rfl, by omega, by omega⟩

/-- A board that is not a draw has an empty cell to enumerate. -/
theorem getEmptyCells_ne_nil {n : Nat} {b : Board} (h : checkDraw n b = false) :
    getEmptyCells n b ≠ [] := by
  have : ∃ row < n, ∃ col < n, b row col = Cell.E := by
    by_contra hc
    push_neg at hc
    have : checkDraw n b = true := by
      simp only [checkDraw, List.all_eq_true, List.mem_range]
      intro row hr col hc'
      simpa using fun he => absurd he (by simpa using hc row hr col hc')
    rw [this] at h; cases h
  obtain ⟨row, hr, col, hc, he⟩ := this
  intro hnil
  have : (row, col) ∈ getEmptyCells n b := mem_getEmptyCells.mpr ⟨hr, hc, he⟩
  rw [hnil] at this
  cases this

/-- The maximizing loop yields a score in `[-10, 10]` when every
recursive call does: the accumulator starts at `-inf` but the first
iteration happens before any pruning break can return it. -/
theorem maxLoop_inRange (maximizer : Cell)
    (rec : Board → Score → Score → Nat → Score × Board × Nat)
    (hrec : ∀ b α β nds, inRange (rec b α β nds).1) :
    ∀ (cells : List (Nat × Nat)) (b : Board) (α β : Score) (nodes : Nat) (acc : Score),
      (acc = ⊥ ∨ inRange acc) → (cells = [] → inRange acc) →
      inRange (maxLoop maximizer rec cells b α β nodes acc).1 := by
  intro cells
  induction cells with
  | nil => intro b α β nodes acc _ hne; exact hne rfl
  | cons rc rest ih =>
    obtain ⟨row, col⟩ := rc
    intro b α β nodes acc hacc _
    have he : inRange (rec (setCell b row col maximizer) α β nodes).1 := hrec _ _ _ _
    have hm : inRange (if (rec (setCell b row col maximizer) α β nodes).1 > acc
        then (rec (setCell b row col maximizer) α β nodes).1 else acc) := by
      rw [if_gt_eq_max]
      rcases hacc with rfl | hacc
      · rwa [max_eq_right bot_le]
      · exact inRange_max hacc he
    simp only [maxLoop]
    split
    · exact hm
    · exact ih _ _ _ _ _ (Or.inr hm) (fun _ => hm)

/-- Dual of `maxLoop_inRange` for the minimizing loop. -/
theorem minLoop_inRange (minimizer : Cell)
    (rec : Board → Score → Score → Nat → Score × Board × Nat)
    (hrec : ∀ b α β nds, inRange (rec b α β nds).1) :
    ∀ (cells : List (Nat × Nat)) (b : Board) (α β : Score) (nodes : Nat) (acc : Score),
      (acc = ⊤ ∨ inRange acc) → (cells = [] → inRange acc) →
      inRange (minLoop minimizer rec cells b α β nodes acc).1 := by
  intro cells
  induction cells with
  | nil => intro b α β nodes acc _ hne; exact hne rfl
  | cons rc rest ih =>
    obtain ⟨row, col⟩ := rc
    intro b α β nodes acc hacc _
    have he : inRange (rec (setCell b row col minimizer) α β nodes).1 := hrec _ _ _ _
    have hm : inRange (if (rec (setCell b row col minimizer) α β nodes).1 < acc
        then (rec (setCell b row col minimizer) α β nodes).1 else acc) := by
      rw [if_lt_eq_min]
      rcases hacc with rfl | hacc
      · rwa [min_eq_right le_top]
      · exact inRange_min hacc he
    simp only [minLoop]
    split
    · exact hm
    · exact ih _ _ _ _ _ (Or.inr hm) (fun _ => hm)

/-- Any `minimax` call whose depth plus fuel stays below the win score's
margin (`depth + fuel ≤ 20`; the wrappers use fuel `9` resp. `16` at
depth `0`) returns a finite score in `[-10, 10]`: the `±inf` loop
sentinels never escape. -/
theorem minimax_inRange (n : Nat) (checkWin : Board → Cell → Bool) :
    ∀ (fuel : Nat) (b : Board) (depth : Nat) (α β : Score) (isMax : Bool)
      (mz : Cell) (dl : Option Nat) (nodes : Nat),
      depth + fuel ≤ 20 →
      inRange (minimax n checkWin fuel b depth α β isMax mz dl nodes).1 := by
  intro fuel
  induction fuel with
  | zero => intro b depth α β isMax mz dl nodes _; exact inRange_evaluate checkWin b mz
  | succ fuel ih =>
    intro b depth α β isMax mz dl nodes hdf
    simp only [minimax]
    split
    · exact inRange_evaluate checkWin b mz
    · split
      · rename_i hne
        rcases evaluate_cases checkWin b mz with h | h | h
        · rw [h]
          have : (0 : Int) < 10 := by omega
          simp only [h] at hne ⊢
          rw [if_pos (by omega)]
          exact ⟨10 - depth, rfl, by omega, by omega⟩
        · simp only [h] at hne ⊢
          rw [if_neg (by omega)]
          exact ⟨-10 + depth, rfl, by omega, by omega⟩
        · rw [h] at hne; exact absurd rfl hne
      · split
        · exact ⟨0, rfl, by omega, by omega⟩
        · rename_i hdraw
          have hne := getEmptyCells_ne_nil (n := n) (b := b) (Bool.of_not_eq_true hdraw)
          split
          · exact maxLoop_inRange _ _
              (fun b' α' β' nds => ih b' (depth + 1) α' β' _ _ _ nds (by omega))
              _ _ _ _ _ _ (Or.inl rfl) (fun h => absurd h hne)
          · exact minLoop_inRange _ _
              (fun b' α' β' nds => ih b' (depth + 1) α' β' _ _ _ nds (by omega))
              _ _ _ _ _ _ (Or.inl rfl) (fun h => absurd h hne)

/-! ### Claim C1 machinery: fail-soft alpha-beta against plain minimax

`approx α β r v` is the classic fail-soft contract of an alpha-beta
call with window `(α, β)`: the returned `r` either fails low (`r ≤ α`,
an upper bound on the true value `v`), fails high (`r ≥ β`, a lower
bound on `v`), or is exact.  At the full window `(-inf, +inf)` it
forces `r = v`. -/

theorem approx_full {r v : Score} (h : approx ⊥ ⊤ r v) : r = v := by
  rcases h with ⟨h1, h2⟩ | ⟨h1, h2⟩ | h
  · rw [le_bot_iff.mp h1] at h2 ⊢
    exact (le_bot_iff.mp h2).symm
  · rw [top_le_iff.mp h1] at h2 ⊢
    exact (top_le_iff.mp h2).symm
  · exact h

theorem approx_refl (α β r : Score) : approx α β r r := Or.inr (Or.inr rfl)

/-- Pull the accumulator out of a max fold. -/
theorem foldl_max_acc (f : (Nat × Nat) → Score) :
    ∀ (cells : List (Nat × Nat)) (acc : Score),
      cells.foldl (fun a rc => max a (f rc)) acc =
        max acc (cells.foldl (fun a rc => max a (f rc)) ⊥) := by
  intro cells
  induction cells with
  | nil => intro acc; exact (max_eq_left bot_le).symm
  | cons rc rest ih =>
    intro acc
    simp only [List.foldl_cons]
    rw [ih (max acc (f rc)), ih (max ⊥ (f rc)), max_eq_right (bot_le : (⊥ : Score) ≤ f rc),
      max_assoc]

/-- Pull the accumulator out of a min fold. -/
theorem foldl_min_acc (f : (Nat × Nat) → Score) :
    ∀ (cells : List (Nat × Nat)) (acc : Score),
      cells.foldl (fun a rc => min a (f rc)) acc =
        min acc (cells.foldl (fun a rc => min a (f rc)) ⊤) := by
  intro cells
  induction cells with
  | nil => intro acc; exact (min_eq_left le_top).symm
  | cons rc rest ih =>
    intro acc
    simp only [List.foldl_cons]
    rw [ih (min acc (f rc)), ih (min ⊤ (f rc)), min_eq_right (le_top : f rc ≤ (⊤ : Score)),
      min_assoc]

/-- If `max x y` exceeds a bound that dominates `x`, the max is `y`. -/
theorem max_eq_right_of_le_of_lt {x y c : Score} (h1 : x ≤ c) (h2 : c < max x y) :
    max x y = y := by
  rcases max_choice x y with h | h
  · rw [h] at h2
    exact absurd (lt_of_lt_of_le h2 h1) (lt_irrefl c)
  · exact h

/-- If `min x y` is below a bound that bounds `x` from below, the min is `y`. -/
theorem min_eq_right_of_le_of_lt {x y c : Score} (h1 : c ≤ x) (h2 : min x y < c) :
    min x y = y := by
  rcases min_choice x y with h | h
  · rw [h] at h2
    exact absurd (lt_of_le_of_lt h1 h2) (lt_irrefl c)
  · exact h

/-- Fail-soft invariant of the maximizing loop: relative to the window
`(α, β)` at loop entry, the loop's answer approximates the max fold of
the true child values, provided each recursive call approximates its
child's true value at any subwindow. -/
theorem maxLoop_approx (maximizer : Cell)
    (rec : Board → Score → Score → Nat → Score × Board × Nat)
    (np : (Nat × Nat) → Score) (β : Score) (b : Board)
    (hpres : ∀ b' α' nds, (rec b' α' β nds).2.1 = b') :
    ∀ (cells : List (Nat × Nat)) (α : Score) (nodes : Nat) (acc : Score),
      (∀ rc ∈ cells, b rc.1 rc.2 = Cell.E) →
      (∀ rc ∈ cells, ∀ α' nds, α' < β →
        approx α' β (rec (setCell b rc.1 rc.2 maximizer) α' β nds).1 (np rc)) →
      α < β → acc ≤ α →
      approx α β (maxLoop maximizer rec cells b α β nodes acc).1
        (cells.foldl (fun a rc => max a (np rc)) acc) := by
  intro cells
  induction cells with
  | nil => intro α nodes acc _ _ _ _; exact approx_refl ..
  | cons rc rest ih =>
    obtain ⟨row, col⟩ := rc
    intro α nodes acc hemp hrec hαβ hacc
    have hcell : b row col = Cell.E := hemp (row, col) (List.mem_cons_self ..)
    set e := (rec (setCell b row col maximizer) α β nodes).1 with he_def
    have hchild : approx α β e (np (row, col)) :=
      hrec (row, col) (List.mem_cons_self ..) α nodes hαβ
    have hb2 : setCell ((rec (setCell b row col maximizer) α β nodes).2.1) row col Cell.E = b := by
      rw [hpres, setCell_setCell, setCell_eq_of_eq hcell]
    -- the true value side
    have hfold : List.foldl (fun a rc => max a (np rc)) acc ((row, col) :: rest) =
        max (max acc (np (row, col)))
          (List.foldl (fun a rc => max a (np rc)) ⊥ rest) := by
      simp only [List.foldl_cons]
      exact foldl_max_acc _ rest _
    set v1 := np (row, col) with hv1_def
    set M := List.foldl (fun a rc => max a (np rc)) ⊥ rest with hM_def
    rw [hfold]
    simp only [maxLoop, if_gt_eq_max]
    split
    · -- pruning break: β ≤ max α e
      rename_i hbreak
      have hβe : β ≤ e := by
        by_contra hlt
        exact absurd (max_lt hαβ (lt_of_not_le hlt)) (not_lt.mpr hbreak)
      have hacc_e : acc < e := lt_of_le_of_lt hacc (lt_of_lt_of_le hαβ hβe)
      have hmax : max acc e = e := max_eq_right hacc_e.le
      have hev : e ≤ v1 := by
        rcases hchild with ⟨h1, _⟩ | ⟨_, h2⟩ | h
        · exact absurd (lt_of_lt_of_le hαβ (le_trans hβe h1)) (lt_irrefl α)
        · exact h2
        · exact le_of_eq h
      refine Or.inr (Or.inl ⟨by rw [hmax]; exact hβe, ?_⟩)
      rw [hmax]
      exact le_trans hev (le_trans (le_max_right _ _) (le_max_left _ _))
    · -- no break: max α e < β, continue with window (max α e, β)
      rename_i hnobreak
      have hα2β : max α e < β := lt_of_not_le hnobreak
      rw [hb2]
      have hrest := ih (max α e) ((rec (setCell b row col maximizer) α β nodes).2.2)
        (max acc e) (fun rc h => hemp rc (List.mem_cons_of_mem _ h))
        (fun rc h => hrec rc (List.mem_cons_of_mem _ h)) hα2β
        (max_le_max hacc (le_refl e))
      rw [foldl_max_acc _ rest (max acc e)] at hrest
      set r := (maxLoop maximizer rec rest b (max α e) β
        (rec (setCell b row col maximizer) α β nodes).2.2 (max acc e)).1 with hr_def
      rcases hchild with ⟨h1, h2⟩ | ⟨h1, _⟩ | h1
      · -- child failed low: e ≤ α, v1 ≤ e
        have hα2 : max α e = α := max_eq_left h1
        rw [hα2] at hrest
        have hvf_le : max (max acc v1) M ≤ max (max acc e) M :=
          max_le_max (max_le_max (le_refl acc) h2) (le_refl M)
        rcases hrest with ⟨k1, k2⟩ | ⟨k1, k2⟩ | k1
        · exact Or.inl ⟨k1, le_trans hvf_le k2⟩
        · -- r ≥ β: the continued fold is driven by M
          have hae : max acc e ≤ α := max_le hacc h1
          have hM : max (max acc e) M = M :=
            max_eq_right_of_le_of_lt hae (lt_of_lt_of_le hαβ (le_trans k1 k2))
          refine Or.inr (Or.inl ⟨k1, le_trans (le_trans k2 (le_of_eq hM)) (le_max_right _ _)⟩)
        · -- r exact on the continued fold
          rcases le_or_lt r α with hr | hr
          · exact Or.inl ⟨hr, le_trans hvf_le (le_of_eq k1.symm)⟩
          · have hae : max acc e ≤ α := max_le hacc h1
            have hM : max (max acc e) M = M := max_eq_right_of_le_of_lt hae (k1 ▸ hr)
            rcases lt_or_le r β with hrβ | hrβ
            · refine Or.inr (Or.inr ?_)
              rw [k1, hM]
              have hv1α : max acc v1 ≤ α := max_le hacc (le_trans h2 h1)
              exact (max_eq_right (le_trans hv1α (le_of_lt (lt_of_le_of_lt (le_refl α)
                (hM ▸ k1 ▸ hr))))).symm
            · refine Or.inr (Or.inl ⟨hrβ, ?_⟩)
              rw [k1, hM]
              exact le_max_right _ _
      · -- child failed high: impossible, the loop would have pruned
        exact absurd (lt_of_le_of_lt (le_trans h1 (le_max_right α e)) hα2β) (lt_irrefl β)
      · -- child exact: e = v1
        rw [h1] at hrest
        rcases hrest with ⟨k1, k2⟩ | ⟨k1, k2⟩ | k1
        · rcases le_or_lt r α with hr | hr
          · exact Or.inl ⟨hr, k2⟩
          · have hmaxe : max α v1 = v1 := by
              rcases max_choice α v1 with h | h
              · exact absurd (lt_of_lt_of_le hr (h ▸ k1)) (lt_irrefl α)
              · exact h
            have hrv : r ≤ v1 := le_trans k1 (le_of_eq hmaxe)
            have hvf : v1 ≤ max (max acc v1) M :=
              le_trans (le_max_right acc v1) (le_max_left _ _)
            exact Or.inr (Or.inr (le_antisymm (le_trans hrv hvf) k2))
        · exact Or.inr (Or.inl ⟨k1, k2⟩)
        · exact Or.inr (Or.inr k1)

/-- Dual of `maxLoop_approx` for the minimizing loop. -/
theorem minLoop_approx (minimizer : Cell)
    (rec : Board → Score → Score → Nat → Score × Board × Nat)
    (np : (Nat × Nat) → Score) (α : Score) (b : Board)
    (hpres : ∀ b' β' nds, (rec b' α β' nds).2.1 = b') :
    ∀ (cells : List (Nat × Nat)) (β : Score) (nodes : Nat) (acc : Score),
      (∀ rc ∈ cells, b rc.1 rc.2 = Cell.E) →
      (∀ rc ∈ cells, ∀ β' nds, α < β' →
        approx α β' (rec (setCell b rc.1 rc.2 minimizer) α β' nds).1 (np rc)) →
      α < β → β ≤ acc →
      approx α β (minLoop minimizer rec cells b α β nodes acc).1
        (cells.foldl (fun a rc => min a (np rc)) acc) := by
  intro cells
  induction cells with
  | nil => intro β nodes acc _ _ _ _; exact approx_refl ..
  | cons rc rest ih =>
    obtain ⟨row, col⟩ := rc
    intro β nodes acc hemp hrec hαβ hacc
    have hcell : b row col = Cell.E := hemp (row, col) (List.mem_cons_self ..)
    set e := (rec (setCell b row col minimizer) α β nodes).1 with he_def
    have hchild : approx α β e (np (row, col)) :=
      hrec (row, col) (List.mem_cons_self ..) β nodes hαβ
    have hb2 : setCell ((rec (setCell b row col minimizer) α β nodes).2.1) row col Cell.E = b := by
      rw [hpres, setCell_setCell, setCell_eq_of_eq hcell]
    have hfold : List.foldl (fun a rc => min a (np rc)) acc ((row, col) :: rest) =
        min (min acc (np (row, col)))
          (List.foldl (fun a rc => min a (np rc)) ⊤ rest) := by
      simp only [List.foldl_cons]
      exact foldl_min_acc _ rest _
    set v1 := np (row, col) with hv1_def
    set M := List.foldl (fun a rc => min a (np rc)) ⊤ rest with hM_def
    rw [hfold]
    simp only [minLoop, if_lt_eq_min]
    split
    · -- pruning break: min β e ≤ α
      rename_i hbreak
      have heα : e ≤ α := by
        rcases min_choice β e with h | h
        · rw [h] at hbreak
          exact absurd (lt_of_lt_of_le hαβ hbreak) (lt_irrefl α)
        · rw [h] at hbreak
          exact hbreak
      have hacc_e : e < acc := lt_of_le_of_lt heα (lt_of_lt_of_le hαβ hacc)
      have hmin : min acc e = e := min_eq_right hacc_e.le
      have hev : v1 ≤ e := by
        rcases hchild with ⟨_, h2⟩ | ⟨h1, _⟩ | h
        · exact h2
        · exact absurd (lt_of_lt_of_le hαβ (le_trans h1 heα)) (lt_irrefl α)
        · exact le_of_eq h.symm
      refine Or.inl ⟨by rw [hmin]; exact heα, ?_⟩
      rw [hmin]
      exact le_trans (le_trans (min_le_left _ _) (min_le_right acc v1)) hev
    · -- no break: α < min β e, continue with window (α, min β e)
      rename_i hnobreak
      have hαβ2 : α < min β e := lt_of_not_le hnobreak
      rw [hb2]
      have hrest := ih (min β e) ((rec (setCell b row col minimizer) α β nodes).2.2)
        (min acc e) (fun rc h => hemp rc (List.mem_cons_of_mem _ h))
        (fun rc h => hrec rc (List.mem_cons_of_mem _ h)) hαβ2
        (min_le_min hacc (le_refl e))
      rw [foldl_min_acc _ rest (min acc e)] at hrest
      set r := (minLoop minimizer rec rest b α (min β e)
        (rec (setCell b row col minimizer) α β nodes).2.2 (min acc e)).1 with hr_def
      rcases hchild with ⟨h1, _⟩ | ⟨h1, h2⟩ | h1
      · -- child failed low: impossible, the loop would have pruned
        exact absurd (lt_of_le_of_lt (le_trans (min_le_right β e) h1) hαβ2) (lt_irrefl _)
      · -- child failed high: β ≤ e, e ≤ v1
        have hβ2 : min β e = β := min_eq_left h1
        rw [hβ2] at hrest
        have hβacc_e : β ≤ min acc e := le_min hacc h1
        have hvf_le : min (min acc e) M ≤ min (min acc v1) M :=
          min_le_min (min_le_min (le_refl acc) h2) (le_refl M)
        rcases hrest with ⟨k1, k2⟩ | ⟨k1, k2⟩ | k1
        · -- r ≤ α: the continued fold is driven by M
          have hM : min (min acc e) M = M :=
            min_eq_right_of_le_of_lt hβacc_e (lt_of_le_of_lt (le_trans k2 k1) hαβ)
          refine Or.inl ⟨k1, le_trans (min_le_right _ _) (le_trans (le_of_eq hM.symm) k2)⟩
        · exact Or.inr (Or.inl ⟨k1, le_trans k2 hvf_le⟩)
        · -- r exact on the continued fold
          rcases lt_or_le α r with hr | hr
          · rcases le_or_lt β r with hrβ | hrβ
            · refine Or.inr (Or.inl ⟨hrβ, ?_⟩)
              rw [k1]
              exact hvf_le
            · refine Or.inr (Or.inr ?_)
              have hM : min (min acc e) M = M :=
                min_eq_right_of_le_of_lt hβacc_e (lt_of_le_of_lt (le_of_eq k1.symm) hrβ)
              rw [k1, hM]
              have hv1β : β ≤ min acc v1 := le_min hacc (le_trans h1 h2)
              exact (min_eq_right (le_of_lt (lt_of_lt_of_le (hM ▸ k1 ▸ hrβ) hv1β))).symm
          · -- r ≤ α
            have hM : min (min acc e) M = M :=
              min_eq_right_of_le_of_lt hβacc_e
                (lt_of_le_of_lt (le_of_eq k1.symm) (lt_of_le_of_lt hr hαβ))
            have hv1β : β ≤ min acc v1 := le_min hacc (le_trans h1 h2)
            have hMle : M ≤ α := by
              rw [← hM, ← k1]; exact hr
            have hvf : min (min acc v1) M = M :=
              min_eq_right (le_trans hMle (le_trans hαβ.le hv1β))
            refine Or.inl ⟨hr, ?_⟩
            rw [hvf, ← hM, k1]
      · -- child exact: e = v1
        rw [h1] at hrest
        rcases hrest with ⟨k1, k2⟩ | ⟨k1, k2⟩ | k1
        · exact Or.inl ⟨k1, k2⟩
        · rcases le_or_lt β v1 with hβv | hβv
          · rw [min_eq_left hβv] at k1
            exact Or.inr (Or.inl ⟨k1, k2⟩)
          · have hβ2 : min β v1 = v1 := min_eq_right hβv.le
            rw [hβ2] at k1
            have hvf : min (min acc v1) M ≤ v1 :=
              le_trans (min_le_left _ _) (min_le_right acc v1)
            exact Or.inr (Or.inr (le_antisymm k2 (le_trans hvf k1)))
        · exact Or.inr (Or.inr k1)

/-- Fail-soft contract of `minimax` against the pruning-free
`minimaxNP`, for any window with `α < β`. -/
theorem minimax_approx (n : Nat) (checkWin : Board → Cell → Bool) :
    ∀ (fuel : Nat) (b : Board) (depth : Nat) (α β : Score) (isMax : Bool)
      (mz : Cell) (dl : Option Nat) (nodes : Nat),
      α < β →
      approx α β (minimax n checkWin fuel b depth α β isMax mz dl nodes).1
        (minimaxNP n checkWin fuel b depth isMax mz dl) := by
  intro fuel
  induction fuel with
  | zero => intro b depth α β isMax mz dl nodes _; exact approx_refl ..
  | succ fuel ih =>
    intro b depth α β isMax mz dl nodes hαβ
    simp only [minimax, minimaxNP]
    split
    · exact approx_refl ..
    · split
      · split <;> exact approx_refl ..
      · split
        · exact approx_refl ..
        · split
          · exact maxLoop_approx mz _
              (fun rc => minimaxNP n checkWin fuel (setCell b rc.1 rc.2 mz)
                (depth + 1) false mz dl) β b
              (fun b' α' nds => minimax_board n checkWin fuel b' (depth + 1) α' β false mz dl nds)
              (getEmptyCells n b) α (nodes + 1) ⊥
              (fun rc h => (mem_getEmptyCells.mp h).2.2)
              (fun rc _ α' nds hα'β => ih (setCell b rc.1 rc.2 mz) (depth + 1) α' β
                false mz dl nds hα'β)
              hαβ bot_le
          · exact minLoop_approx (other mz) _
              (fun rc => minimaxNP n checkWin fuel (setCell b rc.1 rc.2 (other mz))
                (depth + 1) true mz dl) α b
              (fun b' β' nds => minimax_board n checkWin fuel b' (depth + 1) α β' true mz dl nds)
              (getEmptyCells n b) β (nodes + 1) ⊤
              (fun rc h => (mem_getEmptyCells.mp h).2.2)
              (fun rc _ β' nds hαβ' => ih (setCell b rc.1 rc.2 (other mz)) (depth + 1) α β'
                true mz dl nds hαβ')
              hαβ le_top

/-- At the full window the pruning search computes exactly the
pruning-free minimax value. -/
theorem minimax_eq_NP (n : Nat) (checkWin : Board → Cell → Bool)
    (fuel : Nat) (b : Board) (depth : Nat) (isMax : Bool)
    (mz : Cell) (dl : Option Nat) (nodes : Nat) :
    (minimax n checkWin fuel b depth ⊥ ⊤ isMax mz dl nodes).1 =
      minimaxNP n checkWin fuel b depth isMax mz dl :=
  approx_full (minimax_approx n checkWin fuel b depth ⊥ ⊤ isMax mz dl nodes bot_lt_top)

/-! ### Top-level selection in `get_best_move` -/

/-- The stateful top-level loop `bestLoop` is the pure selection `selF`
over the candidate scores, together with the recorded
`move_scores` list — the board copy is handed back unchanged and the
scores do not depend on the node counter. -/
theorem bestLoop_unzip (n : Nat) (checkWin : Board → Cell → Bool) (fuel : Nat)
    (maximizer : Cell) (depthLimit : Option Nat) :
    ∀ (cells : List (Nat × Nat)) (bc : Board) (best : Score)
      (bm : Option (Nat × Nat)) (scores : List ((Nat × Nat) × Score)) (nodes : Nat),
      (∀ rc ∈ cells, bc rc.1 rc.2 = Cell.E) →
      (bestLoop n checkWin fuel maximizer depthLimit cells bc best bm scores nodes).1 =
        (selF (candScore n checkWin fuel maximizer depthLimit bc) cells best bm).2 ∧
      (bestLoop n checkWin fuel maximizer depthLimit cells bc best bm scores nodes).2.2.1 =
        scores ++ cells.map
          (fun rc => (rc, candScore n checkWin fuel maximizer depthLimit bc rc)) := by
  intro cells
  induction cells with
  | nil => intro bc best bm scores nodes _; exact ⟨rfl, by simp [bestLoop]⟩
  | cons rc rest ih =>
    obtain ⟨row, col⟩ := rc
    intro bc best bm scores nodes hemp
    have hcell : bc row col = Cell.E := hemp (row, col) (List.mem_cons_self ..)
    have hscore : (minimax n checkWin fuel (setCell bc row col maximizer) 0 ⊥ ⊤ false
        maximizer depthLimit nodes).1 =
        candScore n checkWin fuel maximizer depthLimit bc (row, col) := by
      rw [minimax_nodes_shift]
      rfl
    have hb2 : setCell ((minimax n checkWin fuel (setCell bc row col maximizer) 0 ⊥ ⊤
        false maximizer depthLimit nodes).2.1) row col Cell.E = bc := by
      rw [minimax_board, setCell_setCell, setCell_eq_of_eq hcell]
    have hemp' : ∀ rc ∈ rest, bc rc.1 rc.2 = Cell.E :=
      fun rc h => hemp rc (List.mem_cons_of_mem _ h)
    simp only [bestLoop, selF, hscore, hb2]
    split
    · have := ih bc (candScore n checkWin fuel maximizer depthLimit bc (row, col))
        (some (row, col))
        (scores ++ [((row, col), candScore n checkWin fuel maximizer depthLimit bc (row, col))])
        ((minimax n checkWin fuel (setCell bc row col maximizer) 0 ⊥ ⊤ false maximizer
          depthLimit nodes).2.2) hemp'
      exact ⟨this.1, by rw [this.2]; simp⟩
    · have := ih bc best bm
        (scores ++ [((row, col), candScore n checkWin fuel maximizer depthLimit bc (row, col))])
        ((minimax n checkWin fuel (setCell bc row col maximizer) 0 ⊥ ⊤ false maximizer
          depthLimit nodes).2.2) hemp'
      exact ⟨this.1, by rw [this.2]; simp⟩

/-- `selF` leaves its state alone when no candidate beats the running
best. -/
theorem selF_skip (score : (Nat × Nat) → Score) :
    ∀ (cells : List (Nat × Nat)) (best : Score) (bm : Option (Nat × Nat)),
      (∀ rc ∈ cells, score rc ≤ best) →
      selF score cells best bm = (best, bm) := by
  intro cells
  induction cells with
  | nil => intro best bm _; rfl
  | cons rc rest ih =>
    intro best bm hle
    have h1 : ¬ score rc > best := not_lt.mpr (hle rc (List.mem_cons_self ..))
    simp only [selF, if_neg h1]
    exact ih best bm (fun rc h => hle rc (List.mem_cons_of_mem _ h))

/-- First-strictly-greatest characterization of `selF`: if some
candidate beats the running best, the selection returns the first
candidate that strictly beats everything before it and is not beaten by
anything after it. -/
theorem selF_first_max (score : (Nat × Nat) → Score) :
    ∀ (cells : List (Nat × Nat)) (best : Score) (bm : Option (Nat × Nat)),
      (∃ rc ∈ cells, best < score rc) →
      ∃ rc l1 l2, cells = l1 ++ rc :: l2 ∧
        (selF score cells best bm).2 = some rc ∧ best < score rc ∧
        (∀ x ∈ l1, score x < score rc) ∧ (∀ x ∈ l2, score x ≤ score rc) := by
  intro cells
  induction cells with
  | nil => intro best bm h; simp at h
  | cons q rest ih =>
    intro best bm hex
    by_cases hq : score q > best
    · simp only [selF, if_pos hq]
      by_cases hrest : ∃ x ∈ rest, score q < score x
      · obtain ⟨rc, l1, l2, hsplit, hsel, hbest, hl1, hl2⟩ :=
          ih (score q) (some q) hrest
        exact ⟨rc, q :: l1, l2, by rw [hsplit]; rfl, hsel, lt_trans hq hbest,
          fun x hx => by
            rcases List.mem_cons.mp hx with rfl | hx
            · exact hbest
            · exact hl1 x hx,
          hl2⟩
      · push_neg at hrest
        refine ⟨q, [], rest, rfl, ?_, hq, by simp, hrest⟩
        rw [selF_skip score rest (score q) (some q) hrest]
    · simp only [selF, if_neg hq]
      have hex' : ∃ rc ∈ rest, best < score rc := by
        obtain ⟨rc, hm, hlt⟩ := hex
        rcases List.mem_cons.mp hm with rfl | hm
        · exact absurd hlt hq
        · exact ⟨rc, hm, hlt⟩
      obtain ⟨rc, l1, l2, hsplit, hsel, hbest, hl1, hl2⟩ := ih best bm hex'
      exact ⟨rc, q :: l1, l2, by rw [hsplit]; rfl, hsel, hbest,
        fun x hx => by
          rcases List.mem_cons.mp hx with rfl | hx
          · exact lt_of_le_of_lt (not_lt.mp hq) hbest
          · exact hl1 x hx,
        hl2⟩

/-- `selF` over pointwise-equal score functions agrees. -/
theorem selF_congr {score score' : (Nat × Nat) → Score} :
    ∀ (cells : List (Nat × Nat)) (best : Score) (bm : Option (Nat × Nat)),
      (∀ rc ∈ cells, score rc = score' rc) →
      selF score cells best bm = selF score' cells best bm := by
  intro cells
  induction cells with
  | nil => intro best bm _; rfl
  | cons rc rest ih =>
    intro best bm heq
    have h1 : score rc = score' rc := heq rc (List.mem_cons_self ..)
    have hrest : ∀ x ∈ rest, score x = score' x :=
      fun x hx => heq x (List.mem_cons_of_mem _ hx)
    simp only [selF, h1]
    split <;> exact ih _ _ hrest

/-- The spec-side pruning-free selection is the same pure selection,
over the pruning-free scores. -/
theorem selNP_eq_selF (n : Nat) (checkWin : Board → Cell → Bool) (fuel : Nat)
    (maximizer : Cell) (depthLimit : Option Nat) (b : Board) :
    ∀ (cells : List (Nat × Nat)) (best : Score) (bm : Option (Nat × Nat)),
      selNP n checkWin fuel maximizer depthLimit b cells best bm =
        (selF (fun rc => minimaxNP n checkWin fuel (setCell b rc.1 rc.2 maximizer) 0
          false maximizer depthLimit) cells best bm).2 := by
  intro cells
  induction cells with
  | nil => intro best bm; rfl
  | cons rc rest ih =>
    intro best bm
    simp only [selNP, selF]
    split <;> exact ih _ _

/-! ### The easy AI's priority passes as first-hit searches -/

/-- Each priority pass of `get_easy_move` finds the first cell of its
candidate list whose test placement wins (the board is restored between
iterations, so every test runs on the original board). -/
theorem easyLoop_find (checkWin : Board → Cell → Bool) (mark : Cell) :
    ∀ (cells : List (Nat × Nat)) (b : Board),
      (∀ rc ∈ cells, b rc.1 rc.2 = Cell.E) →
      (easyLoop checkWin mark cells b).1 =
        cells.find? (fun rc => checkWin (setCell b rc.1 rc.2 mark) mark) := by
  intro cells
  induction cells with
  | nil => intro b _; rfl
  | cons rc rest ih =>
    obtain ⟨row, col⟩ := rc
    intro b hemp
    have hcell : b row col = Cell.E := hemp (row, col) (List.mem_cons_self ..)
    have hb2 : setCell (setCell b row col mark) row col Cell.E = b := by
      rw [setCell_setCell, setCell_eq_of_eq hcell]
    simp only [easyLoop]
    split
    · rename_i hwin
      rw [List.find?_cons_of_pos _ (by simpa using hwin)]
    · rename_i hwin
      rw [List.find?_cons_of_neg _ (by simpa using hwin), hb2]
      exact ih b (fun rc h => hemp rc (List.mem_cons_of_mem _ h))

/-- A successful `find?` splits the list at the first hit. -/
theorem find?_first {p : (Nat × Nat) → Bool} :
    ∀ {l : List (Nat × Nat)} {a : Nat × Nat}, l.find? p = some a →
      ∃ l1 l2, l = l1 ++ a :: l2 ∧ p a = true ∧ ∀ x ∈ l1, p x = false := by
  intro l
  induction l with
  | nil => intro a h; cases h
  | cons q rest ih =>
    intro a h
    by_cases hq : p q
    · rw [List.find?_cons_of_pos _ hq] at h
      obtain rfl := Option.some.injEq .. ▸ h
      exact ⟨[], rest, rfl, hq, by simp⟩
    · rw [List.find?_cons_of_neg _ (by simpa using hq)] at h
      obtain ⟨l1, l2, hsplit, hp, hl1⟩ := ih h
      exact ⟨q :: l1, l2, by rw [hsplit]; rfl, hp,
        fun x hx => by
          rcases List.mem_cons.mp hx with rfl | hx
          · exact Bool.eq_false_iff.mpr hq
          · exact hl1 x hx⟩

/-- A member satisfying the predicate makes `find?` succeed. -/
theorem find?_isSome_of_mem {p : (Nat × Nat) → Bool} :
    ∀ {l : List (Nat × Nat)} {a : Nat × Nat}, a ∈ l → p a = true →
      ∃ c, l.find? p = some c := by
  intro l
  induction l with
  | nil => intro a h; cases h
  | cons q rest ih =>
    intro a hm hp
    by_cases hq : p q
    · exact ⟨q, List.find?_cons_of_pos _ hq⟩
    · rw [List.find?_cons_of_neg _ (by simpa using hq)]
      rcases List.mem_cons.mp hm with rfl | hm
      · exact absurd hp (Bool.eq_false_iff.mpr hq ▸ by simp [Bool.eq_false_iff.mpr hq])
      · exact ih hm hp

/-! ### Claim C3: `check_win` against the window predicate -/

/-- `check_win` of the 4×4 variant detects exactly the length-3
windows of the spec's four line families. -/
theorem checkWin4_iff (b : Board) (p : Cell) :
    checkWin4 b p = true ↔ winWindow 4 3 b p := by
  simp only [checkWin4, winWindow, Bool.or_eq_true, List.any_eq_true, List.all_eq_true,
    List.mem_range, List.mem_range'_1, decide_eq_true_eq]
  constructor
  · rintro (((⟨row, hr, col, hc, hw⟩ | ⟨col, hc, row, hr, hw⟩) | ⟨row, hr, col, hc, hw⟩) |
      ⟨row, hr, col, hc, hw⟩)
    · exact Or.inl ⟨row, hr, col, by omega, fun i hi => hw i hi⟩
    · exact Or.inr (Or.inl ⟨col, hc, row, by omega, fun i hi => hw i hi⟩)
    · exact Or.inr (Or.inr (Or.inl ⟨row, col, by omega, by omega, fun i hi => hw i hi⟩))
    · exact Or.inr (Or.inr (Or.inr ⟨row, col, by omega, by omega, by omega,
        fun i hi => hw i hi⟩))
  · rintro (⟨row, hr, col, hc, hw⟩ | ⟨col, hc, row, hr, hw⟩ | ⟨row, col, hr, hc, hw⟩ |
      ⟨row, col, hr, hc1, hc2, hw⟩)
    · exact Or.inl (Or.inl (Or.inl ⟨row, hr, col, by omega, fun i hi => hw i hi⟩))
    · exact Or.inl (Or.inl (Or.inr ⟨col, hc, row, by omega, fun i hi => hw i hi⟩))
    · exact Or.inl (Or.inr ⟨row, by omega, col, by omega, fun i hi => hw i hi⟩)
    · exact Or.inr ⟨row, by omega, col, by omega, fun i hi => hw i hi⟩

/-- `check_win` of the 3×3 variant (full lines only) coincides with the
window predicate at `K = N = 3`: on a 3×3 board the only length-3
windows are the full lines. -/
theorem checkWin3_iff (b : Board) (p : Cell) :
    checkWin3 b p = true ↔ winWindow 3 3 b p := by
  simp only [checkWin3, winWindow, Bool.or_eq_true, List.any_eq_true, List.all_eq_true,
    List.mem_range, decide_eq_true_eq]
  constructor
  · rintro (((⟨row, hr, hw⟩ | ⟨col, hc, hw⟩) | hd) | ha)
    · exact Or.inl ⟨row, hr, 0, by omega, fun i hi => by simpa using hw i hi⟩
    · exact Or.inr (Or.inl ⟨col, hc, 0, by omega, fun i hi => by simpa using hw i hi⟩)
    · exact Or.inr (Or.inr (Or.inl ⟨0, 0, by omega, by omega,
        fun i hi => by simpa using hd i hi⟩))
    · refine Or.inr (Or.inr (Or.inr ⟨0, 2, by omega, by omega, by omega, fun i hi => ?_⟩))
      have := ha i hi
      simpa using this
  · rintro (⟨row, hr, col, hc, hw⟩ | ⟨col, hc, row, hr, hw⟩ | ⟨row, col, hr, hc, hw⟩ |
      ⟨row, col, hr, hc1, hc2, hw⟩)
    · replace hc : col = 0 := by omega
      subst hc
      exact Or.inl (Or.inl (Or.inl ⟨row, hr, fun i hi => by simpa using hw i hi⟩))
    · replace hr : row = 0 := by omega
      subst hr
      exact Or.inl (Or.inl (Or.inr ⟨col, hc, fun i hi => by simpa using hw i hi⟩))
    · replace hr : row = 0 := by omega
      replace hc : col = 0 := by omega
      subst hr; subst hc
      exact Or.inl (Or.inr (fun i hi => by simpa using hw i hi))
    · replace hr : row = 0 := by omega
      replace hc2 : col = 2 := by omega
      subst hr; subst hc2
      exact Or.inr (fun i hi => by simpa using hw i hi)

/-! ### `get_easy_move` behaviour -/

/-- `get_easy_move` hands `self.board` back exactly as it found it. -/
theorem getEasyMove_board (n : Nat) (checkWin : Board → Cell → Bool)
    (pick : List (Nat × Nat) → Nat × Nat) (b : Board) (ai : Cell) :
    (getEasyMove n checkWin pick b ai).2 = b := by
  have hemp : ∀ rc ∈ getEmptyCells n b, b rc.1 rc.2 = Cell.E :=
    fun rc h => (mem_getEmptyCells.mp h).2.2
  have h1 := easyLoop_board checkWin ai (getEmptyCells n b) b hemp
  have h2 := easyLoop_board checkWin (other ai) (getEmptyCells n b) b hemp
  unfold getEasyMove
  dsimp only
  rw [h1]
  rcases hr1 : (easyLoop checkWin ai (getEmptyCells n b) b).1 with _ | rc
  · rw [h2]
    rcases hr2 : (easyLoop checkWin (other ai) (getEmptyCells n b) b).1 with _ | rc2 <;> rfl
  · rfl

/-- `get_easy_move` returns `None` exactly on a full board, and
otherwise returns one of the empty cells (given that `random.choice`
picks from its list). -/
theorem getEasyMove_spec (n : Nat) (checkWin : Board → Cell → Bool)
    (pick : List (Nat × Nat) → Nat × Nat)
    (hpick : ∀ l, l ≠ [] → pick l ∈ l) (b : Board) (ai : Cell) :
    ((getEasyMove n checkWin pick b ai).1 = none ↔ getEmptyCells n b = []) ∧
    (getEmptyCells n b ≠ [] →
      ∃ rc ∈ getEmptyCells n b, (getEasyMove n checkWin pick b ai).1 = some rc) := by
  have hemp : ∀ rc ∈ getEmptyCells n b, b rc.1 rc.2 = Cell.E :=
    fun rc h => (mem_getEmptyCells.mp h).2.2
  have h1 := easyLoop_board checkWin ai (getEmptyCells n b) b hemp
  have hf1 := easyLoop_find checkWin ai (getEmptyCells n b) b hemp
  have hf2 := easyLoop_find checkWin (other ai) (getEmptyCells n b) b hemp
  unfold getEasyMove
  dsimp only
  rw [h1]
  rcases hr1 : (easyLoop checkWin ai (getEmptyCells n b) b).1 with _ | rc
  · rcases hr2 : (easyLoop checkWin (other ai) (getEmptyCells n b) b).1 with _ | rc2
    · simp only [hr1, hr2]
      constructor
      · constructor
        · intro hnone
          by_contra hne
          rw [if_neg (by simpa using hne)] at hnone
          cases hnone
        · intro hnil
          rw [if_pos (by simpa using hnil)]
      · intro hne
        rw [if_neg (by simpa using hne)]
        exact ⟨pick (getEmptyCells n b), hpick _ hne, rfl⟩
    · have hmem : rc2 ∈ getEmptyCells n b := by
        rw [hr2] at hf2
        exact List.mem_of_find?_eq_some hf2.symm
      simp only [hr1, hr2]
      refine ⟨⟨fun h => Option.noConfusion h, fun h => absurd (h ▸ hmem) (by simp)⟩, ?_⟩
      intro _
      exact ⟨rc2, hmem, rfl⟩
  · have hmem : rc ∈ getEmptyCells n b := by
      rw [hr1] at hf1
      exact List.mem_of_find?_eq_some hf1.symm
    simp only [hr1]
    refine ⟨⟨fun h => Option.noConfusion h, fun h => absurd (h ▸ hmem) (by simp)⟩, ?_⟩
    intro _
    exact ⟨rc, hmem, rfl⟩

/-- The top-level candidate score of the pruning search is the exact
pruning-free minimax value — the candidate window is always the full
`(-inf, +inf)`. -/
theorem candScore_eq_NP (n : Nat) (checkWin : Board → Cell → Bool) (fuel : Nat)
    (maximizer : Cell) (depthLimit : Option Nat) (b : Board) (rc : Nat × Nat) :
    candScore n checkWin fuel maximizer depthLimit b rc =
      minimaxNP n checkWin fuel (setCell b rc.1 rc.2 maximizer) 0 false maximizer
        depthLimit :=
  minimax_eq_NP n checkWin fuel (setCell b rc.1 rc.2 maximizer) 0 false maximizer
    depthLimit 0

/-! ### The claims -/

/-- C2: for every call of `minimax`: (1) at the depth cutoff it returns
the static evaluation immediately, with the node counter untouched;
(2) otherwise the node counter is incremented; (3) otherwise a nonzero
static evaluation is returned adjusted by the depth, `score - depth`
when positive and `score + depth` when negative; (4) otherwise a full
board scores `0`. -/
theorem claim_C2 (n : Nat) (checkWin : Board → Cell → Bool) (fuel : Nat) (b : Board)
    (depth : Nat) (α β : Score) (isMax : Bool) (mz : Cell) (dl : Option Nat) (nodes : Nat) :
    (depthCutoff dl depth = true →
      minimax n checkWin (fuel + 1) b depth α β isMax mz dl nodes =
        (toScore (evaluate checkWin b mz), b, nodes)) ∧
    (depthCutoff dl depth = false →
      nodes + 1 ≤ (minimax n checkWin (fuel + 1) b depth α β isMax mz dl nodes).2.2) ∧
    (depthCutoff dl depth = false → evaluate checkWin b mz ≠ 0 →
      (minimax n checkWin (fuel + 1) b depth α β isMax mz dl nodes).1 =
        (if evaluate checkWin b mz > 0 then toScore (evaluate checkWin b mz - depth)
         else toScore (evaluate checkWin b mz + depth))) ∧
    (depthCutoff dl depth = false → evaluate checkWin b mz = 0 → checkDraw n b = true →
      (minimax n checkWin (fuel + 1) b depth α β isMax mz dl nodes).1 = toScore 0) := by
  refine ⟨?_, ?_, ?_, ?_⟩
  · intro hcut
    simp only [minimax, hcut, if_true]
  · intro hcut
    simp only [minimax, hcut, Bool.false_eq_true, if_false]
    split
    · split <;> exact le_refl _
    · split
      · exact le_refl _
      · split
        · exact maxLoop_nodes_le _ _
            (fun b' α' β' nds => minimax_nodes_le n checkWin fuel b' _ α' β' _ _ _ nds)
            _ _ _ _ _ _
        · exact minLoop_nodes_le _ _
            (fun b' α' β' nds => minimax_nodes_le n checkWin fuel b' _ α' β' _ _ _ nds)
            _ _ _ _ _ _
  · intro hcut hne
    simp only [minimax, hcut, Bool.false_eq_true, if_false, if_pos hne]
    split <;> rfl
  · intro hcut hzero hdraw
    simp only [minimax, hcut, Bool.false_eq_true, if_false,
      if_neg (by simpa using hzero : ¬ evaluate checkWin b mz ≠ 0), if_pos hdraw]

/-- C3: for every board and mark, `check_win` returns true iff some
window of exactly `K` consecutive cells all equal to the mark exists
along a row, column, main diagonal or anti-diagonal — including windows
that do not span a full line (`K = 3` on the 4×4 board of `ttt4_3.py`;
`K = N = 3` on the 3×3 board of `ttt3_3.py`). -/
theorem claim_C3 :
    (∀ (b : Board) (p : Cell), checkWin4 b p = true ↔ winWindow 4 3 b p) ∧
    (∀ (b : Board) (p : Cell), checkWin3 b p = true ↔ winWindow 3 3 b p) :=
  ⟨checkWin4_iff, checkWin3_iff⟩

/-- C4: after any `minimax` call returns, the board passed to it is
identical to the board before the call (every simulated placement is
undone, also when pruning breaks out of the loop); and the boards
`get_best_move` and `get_easy_move` work on are likewise handed back
unchanged, so the authoritative game board is untouched. -/
theorem claim_C4 :
    (∀ (n : Nat) (checkWin : Board → Cell → Bool) (fuel : Nat) (b : Board) (depth : Nat)
      (α β : Score) (isMax : Bool) (mz : Cell) (dl : Option Nat) (nodes : Nat),
      (minimax n checkWin fuel b depth α β isMax mz dl nodes).2.1 = b) ∧
    (∀ (n : Nat) (checkWin : Board → Cell → Bool) (fuel : Nat) (mz : Cell)
      (dl : Option Nat) (b : Board) (best : Score) (bm : Option (Nat × Nat))
      (scores : List ((Nat × Nat) × Score)) (nodes : Nat),
      (bestLoop n checkWin fuel mz dl (getEmptyCells n b) b best bm scores nodes).2.2.2.1 = b) ∧
    (∀ (n : Nat) (checkWin : Board → Cell → Bool) (pick : List (Nat × Nat) → Nat × Nat)
      (b : Board) (ai : Cell), (getEasyMove n checkWin pick b ai).2 = b) :=
  ⟨minimax_board,
   fun n checkWin fuel mz dl b best bm scores nodes =>
     bestLoop_board n checkWin fuel mz dl (getEmptyCells n b) b best bm scores nodes
       (fun rc h => (mem_getEmptyCells.mp h).2.2),
   getEasyMove_board⟩

/-- C8: a move to an out-of-bounds or occupied cell is rejected with
`False` and the board unchanged; a move to an in-bounds empty cell sets
exactly that cell to the mark, leaves every other cell unchanged, and
returns `True`. -/
theorem claim_C8 (b : Board) (row col : Int) (player : Cell) :
    ((¬(0 ≤ row ∧ row < 3 ∧ 0 ≤ col ∧ col < 3) ∨ b row.toNat col.toNat ≠ Cell.E) →
      makeMove b row col player = (false, b)) ∧
    ((0 ≤ row ∧ row < 3 ∧ 0 ≤ col ∧ col < 3) → b row.toNat col.toNat = Cell.E →
      makeMove b row col player = (true, setCell b row.toNat col.toNat player) ∧
      setCell b row.toNat col.toNat player row.toNat col.toNat = player ∧
      ∀ r c : Nat, ¬(r = row.toNat ∧ c = col.toNat) →
        setCell b row.toNat col.toNat player r c = b r c) := by
  have hval_iff : isValidMove b row col = true ↔
      (0 ≤ row ∧ row < 3 ∧ 0 ≤ col ∧ col < 3 ∧ b row.toNat col.toNat = Cell.E) := by
    simp [isValidMove, and_assoc]
  constructor
  · intro h
    have hval : isValidMove b row col = false := by
      rw [Bool.eq_false_iff]
      intro ht
      have hc := hval_iff.mp ht
      rcases h with h | h
      · exact h ⟨hc.1, hc.2.1, hc.2.2.1, hc.2.2.2.1⟩
      · exact h hc.2.2.2.2
    simp only [makeMove, hval, Bool.false_eq_true, if_false]
  · intro hb he
    have hval : isValidMove b row col = true :=
      hval_iff.mpr ⟨hb.1, hb.2.1, hb.2.2.1, hb.2.2.2, he⟩
    simp only [makeMove, hval, if_true]
    refine ⟨trivial, setCell_self .., fun r c hrc => ?_⟩
    simp [setCell, hrc]

/-- C9 (amended): the 4×4 engine's configuration is hardcoded —
`WIN_LENGTH = 3` and `BOARD_SIZE = 4` satisfy
`1 ≤ win_length ≤ board_size` with a positive board size, so the engine
never runs with an unsatisfiable configuration; construction always
succeeds (there is no validation to fail). -/
theorem claim_C9 :
    1 ≤ WIN_LENGTH ∧ WIN_LENGTH ≤ BOARD_SIZE ∧ 0 < BOARD_SIZE ∧ init4.isOk = true :=
  ⟨by decide, by decide, by decide, rfl⟩

/-- C9 counterexample to the claim as stated: construction never
rejects anything — `__init__` takes no board-size or win-length
configuration and has no error path, so no misconfiguration is ever
"rejected at construction with a ConfigurationError". -/
theorem claim_C9_counterexample :
    init4.isOk = true ∧ ∀ e : String, init4 ≠ Except.error e :=
  ⟨rfl, fun e h => Except.noConfusion h⟩

/-- C10: a top-level `minimax` call (depth 0, any alpha, beta and
depth limit of at least 1) returns a finite value in `[-10, 10]` on
both the 3×3 and the 4×4 engine: the `±inf` sentinels never escape. -/
theorem claim_C10 (b : Board) (α β : Score) (dl : Option Nat) (mz : Cell)
    (isMax : Bool) (nodes : Nat) (hdl : ∀ l, dl = some l → 1 ≤ l) :
    (∃ z : Int, (minimax 3 checkWin3 (3 * 3) b 0 α β isMax mz dl nodes).1 = toScore z ∧
      -10 ≤ z ∧ z ≤ 10) ∧
    (∃ z : Int, (minimax 4 checkWin4 (4 * 4) b 0 α β isMax mz dl nodes).1 = toScore z ∧
      -10 ≤ z ∧ z ≤ 10) :=
  ⟨minimax_inRange 3 checkWin3 (3 * 3) b 0 α β isMax mz dl nodes (by omega),
   minimax_inRange 4 checkWin4 (4 * 4) b 0 α β isMax mz dl nodes (by omega)⟩

/-- C5: whenever some empty cell gives the AI mark an immediate win
(and some other empty cell would block an immediate opponent win),
`get_easy_move` returns the first winning cell in the row-major
enumeration; and in the concrete scenario row 0 = `[X, X, ' ']` with
all other cells empty, the easy AI playing `O` returns the blocking
cell `(0, 2)`. -/
theorem claim_C5 :
    (∀ (pick : List (Nat × Nat) → Nat × Nat) (b : Board) (ai : Cell),
      (∃ rc ∈ getEmptyCells 3 b, checkWin3 (setCell b rc.1 rc.2 ai) ai = true) →
      (∃ rc ∈ getEmptyCells 3 b,
        checkWin3 (setCell b rc.1 rc.2 (other ai)) (other ai) = true) →
      ∃ rc l1 l2, getEmptyCells 3 b = l1 ++ rc :: l2 ∧
        (getEasyMove 3 checkWin3 pick b ai).1 = some rc ∧
        checkWin3 (setCell b rc.1 rc.2 ai) ai = true ∧
        ∀ x ∈ l1, checkWin3 (setCell b x.1 x.2 ai) ai = false) ∧
    (∀ pick : List (Nat × Nat) → Nat × Nat,
      (getEasyMove 3 checkWin3 pick boardScenario Cell.O).1 = some (0, 2)) := by
  constructor
  · intro pick b ai hwin _
    have hemp : ∀ rc ∈ getEmptyCells 3 b, b rc.1 rc.2 = Cell.E :=
      fun rc h => (mem_getEmptyCells.mp h).2.2
    have hf1 := easyLoop_find checkWin3 ai (getEmptyCells 3 b) b hemp
    obtain ⟨rc0, hm, hp⟩ := hwin
    obtain ⟨c, hfind⟩ := find?_isSome_of_mem
      (p := fun rc => checkWin3 (setCell b rc.1 rc.2 ai) ai) hm hp
    obtain ⟨l1, l2, hsplit, hpc, hl1⟩ := find?_first hfind
    refine ⟨c, l1, l2, hsplit, ?_, hpc, hl1⟩
    unfold getEasyMove
    dsimp only
    rw [hf1, hfind]
  · intro pick
    rfl

/-- C6: on a board with at least one empty cell, the medium/hard
`get_best_move` returns the candidate whose minimax score is strictly
greatest, and among equal maximal scores the one that comes first in
the row-major `get_empty_cells` enumeration. -/
theorem claim_C6 (pick : List (Nat × Nat) → Nat × Nat) (mode : Mode)
    (difficulty : Difficulty) (cur : Cell) (b : Board)
    (hdiff : difficulty = Difficulty.medium ∨ difficulty = Difficulty.hard)
    (hne : getEmptyCells 3 b ≠ []) :
    ∃ rc l1 l2, getEmptyCells 3 b = l1 ++ rc :: l2 ∧
      getBestMove3 pick mode difficulty cur b = some rc ∧
      (∀ x ∈ l1,
        candScore 3 checkWin3 9 (maximizerOf mode cur) (depthLimitOf difficulty) b x <
        candScore 3 checkWin3 9 (maximizerOf mode cur) (depthLimitOf difficulty) b rc) ∧
      (∀ x ∈ l2,
        candScore 3 checkWin3 9 (maximizerOf mode cur) (depthLimitOf difficulty) b x ≤
        candScore 3 checkWin3 9 (maximizerOf mode cur) (depthLimitOf difficulty) b rc) := by
  have heasy : ¬ difficulty = Difficulty.easy := by
    rcases hdiff with rfl | rfl <;> intro h <;> cases h
  have hemp : ∀ rc ∈ getEmptyCells 3 b, b rc.1 rc.2 = Cell.E :=
    fun rc h => (mem_getEmptyCells.mp h).2.2
  have hunzip := bestLoop_unzip 3 checkWin3 (3 * 3) (maximizerOf mode cur)
    (depthLimitOf difficulty) (getEmptyCells 3 b) b ⊥ none [] 0 hemp
  have hex : ∃ rc ∈ getEmptyCells 3 b,
      (⊥ : Score) < candScore 3 checkWin3 (3 * 3) (maximizerOf mode cur)
        (depthLimitOf difficulty) b rc := by
    rcases hcells : getEmptyCells 3 b with _ | ⟨c0, t⟩
    · exact absurd hcells hne
    · obtain ⟨z, hz, _, _⟩ := minimax_inRange 3 checkWin3 (3 * 3)
        (setCell b c0.1 c0.2 (maximizerOf mode cur)) 0 ⊥ ⊤ false (maximizerOf mode cur)
        (depthLimitOf difficulty) 0 (by omega)
      exact ⟨c0, List.mem_cons_self .., by rw [candScore, hz]; exact bot_lt_toScore z⟩
  obtain ⟨rc, l1, l2, hsplit, hsel, _, hl1, hl2⟩ :=
    selF_first_max (candScore 3 checkWin3 (3 * 3) (maximizerOf mode cur)
      (depthLimitOf difficulty) b) (getEmptyCells 3 b) ⊥ none hex
  refine ⟨rc, l1, l2, hsplit, ?_, hl1, hl2⟩
  unfold getBestMove3
  dsimp only
  rw [if_neg heasy, hunzip.1, hsel]

/-- C7: `get_best_move` returns `None` exactly when the board has no
empty cell; with at least one empty cell it returns the coordinates of
a cell that is empty on the current board — in every mode and at every
difficulty (assuming `random.choice` picks from its list). -/
theorem claim_C7 (pick : List (Nat × Nat) → Nat × Nat)
    (hpick : ∀ l, l ≠ [] → pick l ∈ l) (mode : Mode) (difficulty : Difficulty)
    (cur : Cell) (b : Board) :
    (getBestMove3 pick mode difficulty cur b = none ↔ getEmptyCells 3 b = []) ∧
    (getEmptyCells 3 b ≠ [] →
      ∃ rc, getBestMove3 pick mode difficulty cur b = some rc ∧
        rc.1 < 3 ∧ rc.2 < 3 ∧ b rc.1 rc.2 = Cell.E) := by
  have hemp : ∀ rc ∈ getEmptyCells 3 b, b rc.1 rc.2 = Cell.E :=
    fun rc h => (mem_getEmptyCells.mp h).2.2
  by_cases heasy : difficulty = Difficulty.easy
  · subst heasy
    have hspec := getEasyMove_spec 3 checkWin3 pick hpick b (maximizerOf mode cur)
    have hbm : getBestMove3 pick mode Difficulty.easy cur b =
        (getEasyMove 3 checkWin3 pick b (maximizerOf mode cur)).1 := rfl
    rw [hbm]
    refine ⟨hspec.1, fun hne => ?_⟩
    obtain ⟨rc, hm, hr⟩ := hspec.2 hne
    obtain ⟨h1, h2, h3⟩ := mem_getEmptyCells.mp hm
    exact ⟨rc, hr, h1, h2, h3⟩
  · have hunzip := bestLoop_unzip 3 checkWin3 (3 * 3) (maximizerOf mode cur)
      (depthLimitOf difficulty) (getEmptyCells 3 b) b ⊥ none [] 0 hemp
    have hbm : getBestMove3 pick mode difficulty cur b =
        (bestLoop 3 checkWin3 (3 * 3) (maximizerOf mode cur) (depthLimitOf difficulty)
          (getEmptyCells 3 b) b ⊥ none [] 0).1 := by
      unfold getBestMove3
      dsimp only
      rw [if_neg heasy]
    rw [hbm, hunzip.1]
    by_cases hcells : getEmptyCells 3 b = []
    · rw [hcells]
      exact ⟨by simp [selF], fun h => absurd rfl h⟩
    · have hex : ∃ rc ∈ getEmptyCells 3 b,
          (⊥ : Score) < candScore 3 checkWin3 (3 * 3) (maximizerOf mode cur)
            (depthLimitOf difficulty) b rc := by
        rcases hc : getEmptyCells 3 b with _ | ⟨c0, t⟩
        · exact absurd hc hcells
        · obtain ⟨z, hz, _, _⟩ := minimax_inRange 3 checkWin3 (3 * 3)
            (setCell b c0.1 c0.2 (maximizerOf mode cur)) 0 ⊥ ⊤ false (maximizerOf mode cur)
            (depthLimitOf difficulty) 0 (by omega)
          exact ⟨c0, List.mem_cons_self .., by rw [candScore, hz]; exact bot_lt_toScore z⟩
      obtain ⟨rc, l1, l2, hsplit, hsel, _, _, _⟩ :=
        selF_first_max (candScore 3 checkWin3 (3 * 3) (maximizerOf mode cur)
          (depthLimitOf difficulty) b) (getEmptyCells 3 b) ⊥ none hex
      have hmem : rc ∈ getEmptyCells 3 b := by
        rw [hsplit]
        exact List.mem_append_right _ (List.mem_cons_self ..)
      obtain ⟨h1, h2, h3⟩ := mem_getEmptyCells.mp hmem
      rw [hsel]
      exact ⟨⟨fun h => Option.noConfusion h, fun h => absurd h hcells⟩,
        fun _ => ⟨rc, rfl, h1, h2, h3⟩⟩

/-- C1: with the unlimited depth limit of hard difficulty, the move
`get_best_move` selects through the alpha-beta-pruned search equals the
move the pruning-free exhaustive minimax selects, and every recorded
top-level candidate score (the `move_scores` entries) equals the exact
pruning-free minimax value of that candidate position. -/
theorem claim_C1 (pick : List (Nat × Nat) → Nat × Nat) (mode : Mode) (cur : Cell)
    (b : Board) :
    getBestMove3 pick mode Difficulty.hard cur b =
      getBestMoveNP 3 checkWin3 (3 * 3) (maximizerOf mode cur) none b ∧
    (bestLoop 3 checkWin3 (3 * 3) (maximizerOf mode cur) none (getEmptyCells 3 b) b
        ⊥ none [] 0).2.2.1 =
      (getEmptyCells 3 b).map (fun rc =>
        (rc, minimaxNP 3 checkWin3 (3 * 3) (setCell b rc.1 rc.2 (maximizerOf mode cur)) 0
          false (maximizerOf mode cur) none)) := by
  have hemp : ∀ rc ∈ getEmptyCells 3 b, b rc.1 rc.2 = Cell.E :=
    fun rc h => (mem_getEmptyCells.mp h).2.2
  have hunzip := bestLoop_unzip 3 checkWin3 (3 * 3) (maximizerOf mode cur) none
    (getEmptyCells 3 b) b ⊥ none [] 0 hemp
  have hdl : depthLimitOf Difficulty.hard = none := rfl
  constructor
  · have hbm : getBestMove3 pick mode Difficulty.hard cur b =
        (bestLoop 3 checkWin3 (3 * 3) (maximizerOf mode cur) none
          (getEmptyCells 3 b) b ⊥ none [] 0).1 := by
      unfold getBestMove3
      dsimp only
      rw [if_neg (show ¬ Difficulty.hard = Difficulty.easy from fun h => by cases h), hdl]
    rw [hbm, hunzip.1,
      selF_congr (getEmptyCells 3 b) ⊥ none
        (fun rc _ => candScore_eq_NP 3 checkWin3 (3 * 3) (maximizerOf mode cur) none b rc),
      getBestMoveNP, selNP_eq_selF]
  · rw [hunzip.2, List.nil_append]
    exact List.map_congr_left (fun rc _ => by
      rw [candScore_eq_NP 3 checkWin3 (3 * 3) (maximizerOf mode cur) none b rc])

/-! ### Witnesses -/

/-- Witness for C2: concrete calls exercising each of the four cases. -/
theorem claim_C2_witness :
    minimax 3 checkWin3 1 boardDraw 0 ⊥ ⊤ true Cell.X (some 0) 5 =
      (toScore (evaluate checkWin3 boardDraw Cell.X), boardDraw, 5) ∧
    5 + 1 ≤ (minimax 3 checkWin3 1 boardDraw 0 ⊥ ⊤ true Cell.X none 5).2.2 ∧
    (minimax 3 checkWin3 1 boardXWin 2 ⊥ ⊤ true Cell.X none 0).1 =
      (if evaluate checkWin3 boardXWin Cell.X > 0 then
        toScore (evaluate checkWin3 boardXWin Cell.X - 2)
       else toScore (evaluate checkWin3 boardXWin Cell.X + 2)) ∧
    (minimax 3 checkWin3 1 boardDraw 4 ⊥ ⊤ true Cell.X none 7).1 = toScore 0 :=
  ⟨(claim_C2 3 checkWin3 0 boardDraw 0 ⊥ ⊤ true Cell.X (some 0) 5).1 rfl,
   (claim_C2 3 checkWin3 0 boardDraw 0 ⊥ ⊤ true Cell.X none 5).2.1 rfl,
   (claim_C2 3 checkWin3 0 boardXWin 2 ⊥ ⊤ true Cell.X none 0).2.2.1 rfl (by decide),
   (claim_C2 3 checkWin3 0 boardDraw 4 ⊥ ⊤ true Cell.X none 7).2.2.2 rfl (by decide)
     (by decide)⟩

/-- Witness for C5: on `X X . / O O . / X O X` the easy AI playing `O`
takes the first winning cell. -/
theorem claim_C5_witness :
    ∃ rc l1 l2, getEmptyCells 3 boardTwo = l1 ++ rc :: l2 ∧
      (getEasyMove 3 checkWin3 (fun _ => (0, 0)) boardTwo Cell.O).1 = some rc ∧
      checkWin3 (setCell boardTwo rc.1 rc.2 Cell.O) Cell.O = true ∧
      ∀ x ∈ l1, checkWin3 (setCell boardTwo x.1 x.2 Cell.O) Cell.O = false :=
  claim_C5.1 (fun _ => (0, 0)) boardTwo Cell.O (by decide) (by decide)

/-- Witness for C6 at a concrete two-empty-cell board. -/
theorem claim_C6_witness :
    ∃ rc l1 l2, getEmptyCells 3 boardTwo = l1 ++ rc :: l2 ∧
      getBestMove3 (fun _ => (0, 0)) Mode.humanVsAi Difficulty.hard Cell.X boardTwo =
        some rc ∧
      (∀ x ∈ l1,
        candScore 3 checkWin3 9 (maximizerOf Mode.humanVsAi Cell.X)
          (depthLimitOf Difficulty.hard) boardTwo x <
        candScore 3 checkWin3 9 (maximizerOf Mode.humanVsAi Cell.X)
          (depthLimitOf Difficulty.hard) boardTwo rc) ∧
      (∀ x ∈ l2,
        candScore 3 checkWin3 9 (maximizerOf Mode.humanVsAi Cell.X)
          (depthLimitOf Difficulty.hard) boardTwo x ≤
        candScore 3 checkWin3 9 (maximizerOf Mode.humanVsAi Cell.X)
          (depthLimitOf Difficulty.hard) boardTwo rc) :=
  claim_C6 (fun _ => (0, 0)) Mode.humanVsAi Difficulty.hard Cell.X boardTwo
    (Or.inr rfl) (by decide)

/-- Witness for C7 at a concrete board and a concrete `random.choice`. -/
theorem claim_C7_witness :
    ∃ rc, getBestMove3 (fun l => l.headD (0, 0)) Mode.humanVsAi Difficulty.easy Cell.O
      boardTwo = some rc ∧ rc.1 < 3 ∧ rc.2 < 3 ∧ boardTwo rc.1 rc.2 = Cell.E :=
  (claim_C7 (fun l => l.headD (0, 0))
    (fun l hl => by
      cases l with
      | nil => exact absurd rfl hl
      | cons a t => exact List.mem_cons_self ..)
    Mode.humanVsAi Difficulty.easy Cell.O boardTwo).2 (by decide)

/-- Witness for C8: a rejected move on an occupied cell and an accepted
move on an empty cell. -/
theorem claim_C8_witness :
    makeMove boardDraw 0 0 Cell.X = (false, boardDraw) ∧
    (makeMove boardScenario 0 2 Cell.O =
        (true, setCell boardScenario (0 : Int).toNat (2 : Int).toNat Cell.O) ∧
      setCell boardScenario (0 : Int).toNat (2 : Int).toNat Cell.O (0 : Int).toNat
        (2 : Int).toNat = Cell.O ∧
      ∀ r c : Nat, ¬(r = (0 : Int).toNat ∧ c = (2 : Int).toNat) →
        setCell boardScenario (0 : Int).toNat (2 : Int).toNat Cell.O r c =
          boardScenario r c) :=
  ⟨(claim_C8 boardDraw 0 0 Cell.X).1 (Or.inr (by decide)),
   (claim_C8 boardScenario 0 2 Cell.O).2 (by decide) (by decide)⟩

/-- Witness for C10 at a concrete board with the unlimited depth
limit. -/
theorem claim_C10_witness :
    (∃ z : Int, (minimax 3 checkWin3 (3 * 3) boardTwo 0 ⊥ ⊤ true Cell.O none 0).1 =
      toScore z ∧ -10 ≤ z ∧ z ≤ 10) ∧
    (∃ z : Int, (minimax 4 checkWin4 (4 * 4) boardTwo 0 ⊥ ⊤ true Cell.O none 0).1 =
      toScore z ∧ -10 ≤ z ∧ z ≤ 10) :=
  claim_C10 boardTwo ⊥ ⊤ none Cell.O true 0 (fun l h => Option.noConfusion h)

end TTT
